import Mathlib

/-!
Verification of the directory-prefix renamer (`app/renamer.py`).

The Python module is shallowly embedded:

* `natural_key` mirrors `natural_key` (based on `re.split(r"(\d+)", text)`
  followed by `int(p) if p.isdigit() else p.lower()`).  A name is a `String`
  viewed as its list of characters; maximal digit runs become `PyTok.int`
  tokens and maximal non-digit runs become lower-cased `PyTok.str` tokens.
  The splitter is written with an explicit fuel argument (`s.length + 1`
  always suffices) so that every definition evaluates inside the kernel.
* Python's list comparison on keys is `lexCmpE`: comparing an `int` token
  with a `str` token raises `TypeError`, modelled as `none`.
* The filesystem is `FsTree`: a directory holds a list of immediate files
  (`FileEnt`, which records name, an abstract data tag and whether renaming
  the file fails, e.g. because it is locked), a list of named immediate
  subdirectories, and an optional transient listing failure (`ListErr`);
  `iterdir` on the directory raises the recorded error.  Renaming uses
  Windows `os.rename` semantics: it fails if the destination exists.
* `Python`'s stable `list.sort` is modelled by `List.insertionSort` with the
  non-strict relation `a placed before b iff not (key b < key a)`; a stable
  sort is uniquely determined by the key order and the input order, so this
  agrees with Timsort.
-/

/-! ### Tokens of a natural key -/

/-- Token of a natural-sort key: either a lower-cased text fragment or the
numeric value of a digit run (`natural_key` in `renamer.py`). -/
inductive PyTok : Type where
  | str : List Char → PyTok
  | int : Nat → PyTok
deriving DecidableEq, Repr

/-- Value of a run of decimal digits, most significant first (Python `int`). -/
def digitsToNat (ds : List Char) : Nat :=
  ds.foldl (fun a c => a * 10 + (c.toNat - 48)) 0

/-- Negation of `Char.isDigit`; `re.split(r"(\d+)", s)` cuts the string at
maximal runs of decimal digits. -/
def notDigit (c : Char) : Bool := !c.isDigit

/-- Fuel-driven transliteration of
`[int(p) if p.isdigit() else p.lower() for p in re.split(r"(\d+)", text)]`:
emit the (possibly empty) maximal non-digit run lower-cased, then the maximal
digit run as a number, and continue.  Any fuel above `cs.length` computes the
full split. -/
def splitAux : Nat → List Char → List PyTok
  | 0, _ => []
  | f + 1, cs =>
    let txt := (cs.takeWhile notDigit).map Char.toLower
    match cs.dropWhile notDigit with
    | [] => [PyTok.str txt]
    | d :: rest =>
      PyTok.str txt :: PyTok.int (digitsToNat (d :: rest.takeWhile Char.isDigit))
        :: splitAux f (rest.dropWhile Char.isDigit)

/-- `natural_key` from `renamer.py`. -/
def natural_key (s : String) : List PyTok := splitAux (s.data.length + 1) s.data

/-! ### Comparison of keys (Python list / str / int comparison) -/

/-- Three-way comparison of naturals. -/
def natCmp (a b : Nat) : Ordering :=
  if a < b then .lt else if a = b then .eq else .gt

/-- Python `str` comparison is code-point wise; characters compare by their
scalar value. -/
def charCmp (a b : Char) : Ordering := natCmp a.toNat b.toNat

/-- Lexicographic comparison of lists by a total comparator; a strict prefix
sorts first (Python sequence comparison). -/
def lexCmp (cmp : α → α → Ordering) : List α → List α → Ordering
  | [], [] => .eq
  | [], _ :: _ => .lt
  | _ :: _, [] => .gt
  | a :: as, b :: bs => (cmp a b).then (lexCmp cmp as bs)

/-- Python comparison of two key tokens.  `int` vs `str` raises `TypeError`,
modelled by `none`. -/
def tokCmpE : PyTok → PyTok → Option Ordering
  | .int m, .int n => some (natCmp m n)
  | .str s, .str t => some (lexCmp charCmp s t)
  | _, _ => none

/-- Python comparison of two token lists: position-wise, a raised `TypeError`
propagates, and a strict prefix sorts first. -/
def lexCmpE (cmp : α → α → Option Ordering) : List α → List α → Option Ordering
  | [], [] => some .eq
  | [], _ :: _ => some .lt
  | _ :: _, [] => some .gt
  | a :: as, b :: bs =>
    match cmp a b with
    | none => none
    | some .lt => some .lt
    | some .gt => some .gt
    | some .eq => lexCmpE cmp as bs

/-- Total variant of `tokCmpE` used to reason about the order; on the keys
actually produced by `natural_key` the two agree (`lexCmpE_eq_lexCmp`),
because mixed-kind positions never arise. -/
def tokCmpT : PyTok → PyTok → Ordering
  | .int m, .int n => natCmp m n
  | .str s, .str t => lexCmp charCmp s t
  | .int _, .str _ => .lt
  | .str _, .int _ => .gt

/-- Strict "natural order" on names: Python `natural_key a < natural_key b`. -/
def nameLt (a b : String) : Prop :=
  lexCmpE tokCmpE (natural_key a) (natural_key b) = some .lt

instance : DecidableRel nameLt := fun a b => by unfold nameLt; infer_instance

/-- Non-strict natural order: `a` may be placed before `b` by a stable sort
with key `natural_key` exactly when `not (b < a)`. -/
def nameLe (a b : String) : Prop := ¬ nameLt b a

instance : DecidableRel nameLe := fun a b => by unfold nameLe; infer_instance

/-! ### Structure of the keys produced by natural_key -/

/-- Well-formed key: a strict alternation `str, int, str, …, str` (odd length,
text first and last).  Each text token is digit-free and is the lower-casing
of some character run. -/
inductive GoodKey : List PyTok → Prop where
  | single (s : List Char) (hd : ∀ c ∈ s, c.isDigit = false)
      (hl : ∃ t : List Char, s = t.map Char.toLower) : GoodKey [PyTok.str s]
  | cons (s : List Char) (n : Nat) (rest : List PyTok)
      (hd : ∀ c ∈ s, c.isDigit = false) (hl : ∃ t : List Char, s = t.map Char.toLower)
      (hr : GoodKey rest) : GoodKey (PyTok.str s :: PyTok.int n :: rest)

theorem length_dropWhile_le (p : α → Bool) (l : List α) :
    (l.dropWhile p).length ≤ l.length := by
  induction l with
  | nil => simp [List.dropWhile]
  | cons a l ih =>
    rw [List.dropWhile]
    cases p a
    · simp
    · simp
      omega

theorem char_ofNatAux_toNat (n : Nat) (h : n.isValidChar) :
    (Char.ofNatAux n h).toNat = n := by
  simp [Char.ofNatAux, Char.toNat, UInt32.toNat]

theorem isDigit_iff_toNat (c : Char) :
    c.isDigit = true ↔ 48 ≤ c.toNat ∧ c.toNat ≤ 57 := by
  simp [Char.isDigit, Char.toNat]
  exact Iff.rfl

theorem toLower_isDigit (c : Char) : c.toLower.isDigit = c.isDigit := by
  by_cases h : c.toNat ≥ 65 ∧ c.toNat ≤ 90
  · have hv : (c.toNat + 32).isValidChar := by left; omega
    have h1 : c.toLower = Char.ofNat (c.toNat + 32) := by
      simp [Char.toLower, h]
    have h2 : (Char.ofNat (c.toNat + 32)).toNat = c.toNat + 32 := by
      simp [Char.ofNat, hv, char_ofNatAux_toNat]
    have h3 : ¬ (48 ≤ c.toNat + 32 ∧ c.toNat + 32 ≤ 57) := by omega
    have h4 : ¬ (48 ≤ c.toNat ∧ c.toNat ≤ 57) := by omega
    rw [h1]
    rw [show ∀ b1 b2 : Bool, (b1 = b2) = (b1 = true ↔ b2 = true) by decide]
    rw [isDigit_iff_toNat, isDigit_iff_toNat, h2]
    constructor
    · intro hh; exact absurd hh h3
    · intro hh; exact absurd hh h4
  · simp [Char.toLower, h]

theorem splitAux_succ (f : Nat) (cs : List Char) :
    splitAux (f + 1) cs =
      match cs.dropWhile notDigit with
      | [] => [PyTok.str ((cs.takeWhile notDigit).map Char.toLower)]
      | d :: rest =>
        PyTok.str ((cs.takeWhile notDigit).map Char.toLower)
          :: PyTok.int (digitsToNat (d :: rest.takeWhile Char.isDigit))
          :: splitAux f (rest.dropWhile Char.isDigit) := rfl

theorem goodKey_splitAux :
    ∀ (f : Nat) (cs : List Char), cs.length < f → GoodKey (splitAux f cs) := by
  intro f
  induction f with
  | zero => intro cs h; omega
  | succ f ih =>
    intro cs hlen
    have htxt : ∀ c ∈ (cs.takeWhile notDigit).map Char.toLower, c.isDigit = false := by
      intro c hc
      rcases List.mem_map.mp hc with ⟨c0, hc0, rfl⟩
      have := List.mem_takeWhile_imp hc0
      rw [toLower_isDigit]
      simpa [notDigit] using this
    have hlow : ∃ t : List Char,
        (cs.takeWhile notDigit).map Char.toLower = t.map Char.toLower :=
      ⟨cs.takeWhile notDigit, rfl⟩
    rw [splitAux_succ]
    cases hdw : cs.dropWhile notDigit with
    | nil => exact GoodKey.single _ htxt hlow
    | cons d rest =>
      refine GoodKey.cons _ _ _ htxt hlow (ih _ ?_)
      have h1 : (cs.dropWhile notDigit).length ≤ cs.length := length_dropWhile_le _ _
      rw [hdw] at h1
      have h2 : (rest.dropWhile Char.isDigit).length ≤ rest.length :=
        length_dropWhile_le _ _
      simp at h1
      omega

theorem goodKey_natural_key (s : String) : GoodKey (natural_key s) :=
  goodKey_splitAux _ _ (Nat.lt_succ_self _)

/-! ### Order laws for the comparators -/

theorem natCmp_refl (a : Nat) : natCmp a a = .eq := by simp [natCmp]

theorem natCmp_eq (a b : Nat) (h : natCmp a b = .eq) : a = b := by
  unfold natCmp at h
  split at h
  · exact absurd h (by simp)
  · split at h
    · assumption
    · exact absurd h (by simp)

theorem natCmp_swap (a b : Nat) : natCmp a b = (natCmp b a).swap := by
  unfold natCmp
  rcases Nat.lt_trichotomy a b with h | h | h
  · rw [if_pos h, if_neg (Nat.lt_asymm h), if_neg (by omega : ¬ b = a)]
    rfl
  · subst h
    rw [if_neg (Nat.lt_irrefl a), if_pos rfl]
    rfl
  · rw [if_neg (Nat.lt_asymm h), if_neg (by omega : ¬ a = b), if_pos h]
    rfl

theorem natCmp_trans (a b c : Nat) (h1 : natCmp a b = .lt) (h2 : natCmp b c = .lt) :
    natCmp a c = .lt := by
  unfold natCmp at *
  split at h1
  · split at h2
    · rw [if_pos (by omega)]
    · split at h2
      · exact absurd h2 (by simp)
      · exact absurd h2 (by simp)
  · split at h1
    · exact absurd h1 (by simp)
    · exact absurd h1 (by simp)

theorem charCmp_refl (a : Char) : charCmp a a = .eq := natCmp_refl _

theorem charCmp_eq (a b : Char) (h : charCmp a b = .eq) : a = b :=
  Char.eq_of_val_eq (UInt32.ext (natCmp_eq _ _ h))

theorem charCmp_swap (a b : Char) : charCmp a b = (charCmp b a).swap :=
  natCmp_swap _ _

theorem charCmp_trans (a b c : Char) (h1 : charCmp a b = .lt) (h2 : charCmp b c = .lt) :
    charCmp a c = .lt := natCmp_trans _ _ _ h1 h2

theorem then_eq_lt (x y : Ordering) : x.then y = .lt ↔ x = .lt ∨ (x = .eq ∧ y = .lt) := by
  cases x <;> simp [Ordering.then]

theorem then_eq_eq (x y : Ordering) : x.then y = .eq ↔ x = .eq ∧ y = .eq := by
  cases x <;> simp [Ordering.then]

theorem then_swap (x y : Ordering) : (x.then y).swap = x.swap.then y.swap := by
  cases x <;> rfl

theorem lexCmp_refl (cmp : α → α → Ordering) (hr : ∀ a, cmp a a = .eq) :
    ∀ l : List α, lexCmp cmp l l = .eq := by
  intro l
  induction l with
  | nil => rfl
  | cons a l ih => simp [lexCmp, hr, ih, Ordering.then]

theorem lexCmp_eq (cmp : α → α → Ordering) (he : ∀ a b, cmp a b = .eq → a = b) :
    ∀ l1 l2 : List α, lexCmp cmp l1 l2 = .eq → l1 = l2 := by
  intro l1
  induction l1 with
  | nil =>
    intro l2 h
    cases l2 with
    | nil => rfl
    | cons b l2 => exact absurd h (by simp [lexCmp])
  | cons a l ih =>
    intro l2 h
    cases l2 with
    | nil => exact absurd h (by simp [lexCmp])
    | cons b l2 =>
      rw [lexCmp, then_eq_eq] at h
      rw [he a b h.1, ih l2 h.2]

theorem lexCmp_swap (cmp : α → α → Ordering) (hs : ∀ a b, cmp a b = (cmp b a).swap) :
    ∀ l1 l2 : List α, lexCmp cmp l1 l2 = (lexCmp cmp l2 l1).swap := by
  intro l1
  induction l1 with
  | nil =>
    intro l2
    cases l2 <;> rfl
  | cons a l ih =>
    intro l2
    cases l2 with
    | nil => rfl
    | cons b l2 =>
      rw [lexCmp, lexCmp, then_swap, ← hs a b, ih l2]

theorem lexCmp_trans (cmp : α → α → Ordering) (he : ∀ a b, cmp a b = .eq → a = b)
    (ht : ∀ a b c, cmp a b = .lt → cmp b c = .lt → cmp a c = .lt) :
    ∀ l1 l2 l3 : List α, lexCmp cmp l1 l2 = .lt → lexCmp cmp l2 l3 = .lt →
      lexCmp cmp l1 l3 = .lt := by
  intro l1
  induction l1 with
  | nil =>
    intro l2 l3 h1 h2
    cases l3 with
    | nil =>
      cases l2 with
      | nil => exact absurd h1 (by simp [lexCmp])
      | cons b l2 => exact absurd h2 (by simp [lexCmp])
    | cons c l3 => rfl
  | cons a l ih =>
    intro l2 l3 h1 h2
    cases l2 with
    | nil => exact absurd h1 (by simp [lexCmp])
    | cons b l2 =>
      cases l3 with
      | nil => exact absurd h2 (by simp [lexCmp])
      | cons c l3 =>
        rw [lexCmp, then_eq_lt] at h1 h2 ⊢
        rcases h1 with h1 | ⟨h1e, h1r⟩
        · rcases h2 with h2 | ⟨h2e, h2r⟩
          · exact Or.inl (ht a b c h1 h2)
          · have := he b c h2e
            subst this
            exact Or.inl h1
        · have := he a b h1e
          subst this
          rcases h2 with h2 | ⟨h2e, h2r⟩
          · exact Or.inl h2
          · exact Or.inr ⟨h2e, ih l2 l3 h1r h2r⟩

theorem tokCmpT_refl (a : PyTok) : tokCmpT a a = .eq := by
  cases a with
  | str s => exact lexCmp_refl charCmp charCmp_refl s
  | int n => exact natCmp_refl n

theorem tokCmpT_eq (a b : PyTok) (h : tokCmpT a b = .eq) : a = b := by
  cases a <;> cases b <;> simp [tokCmpT] at h ⊢
  · exact lexCmp_eq charCmp charCmp_eq _ _ h
  · exact natCmp_eq _ _ h

theorem tokCmpT_swap (a b : PyTok) : tokCmpT a b = (tokCmpT b a).swap := by
  cases a <;> cases b <;> simp [tokCmpT]
  · exact lexCmp_swap charCmp charCmp_swap _ _
  · rfl
  · rfl
  · exact natCmp_swap _ _

theorem tokCmpT_trans (a b c : PyTok) (h1 : tokCmpT a b = .lt) (h2 : tokCmpT b c = .lt) :
    tokCmpT a c = .lt := by
  cases a <;> cases b <;> cases c <;> simp [tokCmpT] at h1 h2 ⊢
  · exact lexCmp_trans charCmp charCmp_eq charCmp_trans _ _ _ h1 h2
  · exact natCmp_trans _ _ _ h1 h2

/-- On well-formed keys Python's fallible comparison never raises and agrees
with the total comparator: mixed-kind positions cannot occur. -/
theorem lexCmpE_good : ∀ (k1 k2 : List PyTok), GoodKey k1 → GoodKey k2 →
    lexCmpE tokCmpE k1 k2 = some (lexCmp tokCmpT k1 k2) := by
  intro k1 k2 h1 h2
  induction h1 generalizing k2 with
  | single s hd hl =>
    cases h2 with
    | single t hd2 hl2 =>
      cases ho : lexCmp charCmp s t <;>
        simp [lexCmpE, lexCmp, tokCmpE, tokCmpT, ho, Ordering.then]
    | cons t n rest hd2 hl2 hr2 =>
      cases ho : lexCmp charCmp s t <;>
        simp [lexCmpE, lexCmp, tokCmpE, tokCmpT, ho, Ordering.then]
  | cons s m as hd hl hr ih =>
    cases h2 with
    | single t hd2 hl2 =>
      cases ho : lexCmp charCmp s t <;>
        simp [lexCmpE, lexCmp, tokCmpE, tokCmpT, ho, Ordering.then]
    | cons t n bs hd2 hl2 hr2 =>
      cases ho : lexCmp charCmp s t
      · simp [lexCmpE, lexCmp, tokCmpE, tokCmpT, ho, Ordering.then]
      · cases hmn : natCmp m n <;>
          simp [lexCmpE, lexCmp, tokCmpE, tokCmpT, ho, hmn, Ordering.then, ih _ hr2]
      · simp [lexCmpE, lexCmp, tokCmpE, tokCmpT, ho, Ordering.then]

/-- Total comparator on names induced by `natural_key`. -/
def nameCmp (a b : String) : Ordering :=
  lexCmp tokCmpT (natural_key a) (natural_key b)

theorem nameCmpE_eq (a b : String) :
    lexCmpE tokCmpE (natural_key a) (natural_key b) = some (nameCmp a b) :=
  lexCmpE_good _ _ (goodKey_natural_key a) (goodKey_natural_key b)

theorem nameLt_iff (a b : String) : nameLt a b ↔ nameCmp a b = .lt := by
  unfold nameLt
  rw [nameCmpE_eq]
  constructor
  · intro h; exact Option.some_injective _ h
  · intro h; rw [h]

theorem nameCmp_refl (a : String) : nameCmp a a = .eq :=
  lexCmp_refl tokCmpT tokCmpT_refl _

theorem nameCmp_swap (a b : String) : nameCmp a b = (nameCmp b a).swap :=
  lexCmp_swap tokCmpT tokCmpT_swap _ _

theorem nameCmp_key_eq (a b : String) (h : nameCmp a b = .eq) :
    natural_key a = natural_key b :=
  lexCmp_eq tokCmpT tokCmpT_eq _ _ h

theorem nameCmp_trans (a b c : String) (h1 : nameCmp a b = .lt) (h2 : nameCmp b c = .lt) :
    nameCmp a c = .lt :=
  lexCmp_trans tokCmpT tokCmpT_eq tokCmpT_trans _ _ _ h1 h2

theorem nameLe_iff (a b : String) : nameLe a b ↔ (nameCmp a b = .lt ∨ nameCmp a b = .eq) := by
  unfold nameLe
  rw [nameLt_iff, nameCmp_swap]
  cases nameCmp a b <;> simp [Ordering.swap]

theorem nameCmp_congr_right (a b c : String) (h : natural_key b = natural_key c) :
    nameCmp a b = nameCmp a c := by
  unfold nameCmp
  rw [h]

theorem nameCmp_congr_left (a b c : String) (h : natural_key a = natural_key b) :
    nameCmp a c = nameCmp b c := by
  unfold nameCmp
  rw [h]

theorem nameLe_total (a b : String) : nameLe a b ∨ nameLe b a := by
  rw [nameLe_iff, nameLe_iff, nameCmp_swap b a]
  cases nameCmp a b <;> simp [Ordering.swap]

theorem nameLe_trans (a b c : String) (h1 : nameLe a b) (h2 : nameLe b c) : nameLe a c := by
  rw [nameLe_iff] at *
  rcases h1 with h1 | h1 <;> rcases h2 with h2 | h2
  · exact Or.inl (nameCmp_trans a b c h1 h2)
  · rw [← nameCmp_congr_right a b c (nameCmp_key_eq _ _ h2)]
    exact Or.inl h1
  · rw [nameCmp_congr_left a b c (nameCmp_key_eq _ _ h1)]
    exact Or.inl h2
  · rw [nameCmp_congr_left a b c (nameCmp_key_eq _ _ h1)]
    exact Or.inr h2

instance : IsTotal String nameLe := ⟨nameLe_total⟩

instance : IsTrans String nameLe := ⟨nameLe_trans⟩

/-! ### Filesystem model -/

/-- Transient failure of `Path.iterdir()` on a directory: the directory
vanished (`FileNotFoundError`, the only error `renamer.py` catches), or
listing is denied (`PermissionError`, which the code does not catch). -/
inductive ListErr : Type where
  | notFound
  | permission
deriving DecidableEq, Repr

/-- Error escaping `rename_files_in_tree`: the root precondition failure
(`NotADirectoryError`), or an uncaught `PermissionError` from a listing. -/
inductive RunErr : Type where
  | notADirectory
  | permissionDenied
deriving DecidableEq, Repr

/-- Error raised by one `os.rename` call (Windows semantics): missing source,
existing destination, or a source that cannot be moved (e.g. locked). -/
inductive RenErr : Type where
  | srcMissing
  | dstExists
  | locked
deriving DecidableEq, Repr

/-- An immediate file of a directory: its base name, an abstract content tag
(used to state that no data is lost), and whether any attempt to rename it
fails (a locked/busy file). -/
structure FileEnt where
  name : String
  data : Nat
  locked : Bool
deriving DecidableEq, Repr

/-- A directory: immediate files, named immediate subdirectories, and the
optional transient listing failure raised by `iterdir`. -/
inductive FsTree : Type where
  | node : List FileEnt → List (String × FsTree) → Option ListErr → FsTree

/-- Immediate files of a directory. -/
def FsTree.files : FsTree → List FileEnt
  | .node fls _ _ => fls

/-- Named immediate subdirectories of a directory. -/
def FsTree.subsOf : FsTree → List (String × FsTree)
  | .node _ subs _ => subs

/-- Listing failure of a directory, if any. -/
def FsTree.errOf : FsTree → Option ListErr
  | .node _ _ le => le

mutual

/-- Number of directory nodes of a tree (used as recursion fuel: every walk
descends at least one level per step, so `tsize` steps always suffice). -/
def tsize : FsTree → Nat
  | .node _ subs _ => 1 + lsize subs

/-- Sum of `tsize` over named subtrees. -/
def lsize : List (String × FsTree) → Nat
  | [] => 0
  | (_, t) :: rest => 1 + tsize t + lsize rest

end

/-- Resolve a path (list of names from the root) to a directory, taking the
first subdirectory with a matching name at each step; `none` when some
component is missing (or is a file, which a directory path never names). -/
def getDir : List String → FsTree → Option FsTree
  | [], t => some t
  | n :: rest, t =>
    match t.subsOf.find? (fun p => p.1 = n) with
    | some p => getDir rest p.2
    | none => none

/-- Replace the first subdirectory named `n` using `f`. -/
def setSubs (f : FsTree → FsTree) (n : String) : List (String × FsTree) → List (String × FsTree)
  | [] => []
  | p :: rest => if p.1 = n then (p.1, f p.2) :: rest else p :: setSubs f n rest

/-- Replace the subtree at a path with `r` (identity when the path is absent). -/
def setDirAux : List String → FsTree → FsTree → FsTree
  | [], r => fun _ => r
  | n :: rest, r => fun t =>
    match t with
    | .node fls subs le => .node fls (setSubs (setDirAux rest r) n subs) le

/-- Replace the subtree of `t` at `path` with `r`. -/
def setDirAt (t : FsTree) (path : List String) (r : FsTree) : FsTree :=
  setDirAux path r t

/-- `Path.exists` within one directory: some immediate file or subdirectory
has this name. -/
def entryExists (fls : List FileEnt) (subNames : List String) (n : String) : Bool :=
  fls.any (fun f => f.name = n) || subNames.any (fun s => s = n)

/-- One `os.rename` inside a directory, Windows semantics: fails if the
source is missing, the source file is locked, or the destination name exists
(as a file or as a subdirectory); otherwise the file keeps its slot and its
data and only its name changes. -/
def osRename (fls : List FileEnt) (subNames : List String) (src dst : String) :
    Except RenErr (List FileEnt) :=
  match fls.find? (fun f => f.name = src) with
  | none => .error .srcMissing
  | some f =>
    if f.locked then .error .locked
    else if entryExists fls subNames dst then .error .dstExists
    else .ok (fls.map (fun g => if g.name = src then { g with name := dst } else g))

/-- The unique temporary name `__renaming__<uuid4 hex>__<src>`; the random
hex is modelled by a fixed tag, standing for a value that collides with no
existing entry (which holds in every state considered here). -/
def tempName (src : String) : String := "__renaming__u__" ++ src

/-- `_safe_rename` from `renamer.py` over one directory, returning the
directory contents after the call together with the outcome.  A failure of
the second hop leaves the file under the temporary name, exactly as an
exception between the two `Path.rename` calls would. -/
def _safe_rename (fls : List FileEnt) (subNames : List String) (src dst : String) :
    List FileEnt × Except RenErr Unit :=
  if src = dst then (fls, .ok ())
  else if entryExists fls subNames dst then
    match osRename fls subNames src (tempName src) with
    | .error e => (fls, .error e)
    | .ok fls1 =>
      match osRename fls1 subNames (tempName src) dst with
      | .error e => (fls1, .error e)
      | .ok fls2 => (fls2, .ok ())
  else
    match osRename fls subNames src dst with
    | .error e => (fls, .error e)
    | .ok fls1 => (fls1, .ok ())

/-- The new name `f"{prefix_index}_{file_path.name}"`. -/
def renName (idx : Nat) (s : String) : String := toString idx ++ "_" ++ s

/-- Progress events delivered to the log callback, one constructor per
`log(...)` call site of `renamer.py` (the payload of the formatted string). -/
inductive LogEv : Type where
  | processingRoot (root : List String) (idx : Nat)
  | processing (dir : List String) (idx : Nat)
  | renamed (src dst : List String)
  | renameError (src : List String)
  | done (total : Nat)
deriving DecidableEq, Repr

/-- Sort order of file entries: natural order of their names (`entries.sort`
with `key=natural_key` in `_prefix_files_in_dir`). -/
def entLe (a b : FileEnt) : Prop := nameLe a.name b.name

instance : DecidableRel entLe := fun a b => by unfold entLe; infer_instance

instance : IsTotal FileEnt entLe := ⟨fun a b => nameLe_total a.name b.name⟩

instance : IsTrans FileEnt entLe := ⟨fun a b c => nameLe_trans a.name b.name c.name⟩

/-- Sort order of named subtrees (`subdirs.sort` in `_iter_subdirs_natural`). -/
def subLe (a b : String × FsTree) : Prop := nameLe a.1 b.1

instance : DecidableRel subLe := fun a b => by unfold subLe; infer_instance

instance : IsTotal (String × FsTree) subLe := ⟨fun a b => nameLe_total a.1 b.1⟩

instance : IsTrans (String × FsTree) subLe := ⟨fun a b c => nameLe_trans a.1 b.1 c.1⟩

/-- Sort order of position-tagged named subtrees; the tag records the slot in
the parent's listing so that processing can write results back in place. -/
def enumLe (a b : Nat × String × FsTree) : Prop := nameLe a.2.1 b.2.1

instance : DecidableRel enumLe := fun a b => by unfold enumLe; infer_instance

instance : IsTotal (Nat × String × FsTree) enumLe := ⟨fun a b => nameLe_total a.2.1 b.2.1⟩

instance : IsTrans (Nat × String × FsTree) enumLe :=
  ⟨fun a b c => nameLe_trans a.2.1 b.2.1 c.2.1⟩

/-- The per-file loop of `_prefix_files_in_dir`: process the snapshot
`entries` in order against the live directory contents; count a success,
log `RENAMED` or `ERROR`, and always continue with the next file (the broad
`except` around each rename). -/
def prefixLoop (subNames : List String) (idx : Nat) (dirPath : List String) :
    List FileEnt → List FileEnt → Nat → List LogEv → List FileEnt × Nat × List LogEv
  | [], fls, cnt, logs => (fls, cnt, logs)
  | e :: rest, fls, cnt, logs =>
    let r := _safe_rename fls subNames e.name (renName idx e.name)
    match r.2 with
    | .ok _ =>
      prefixLoop subNames idx dirPath rest r.1 (cnt + 1)
        (logs ++ [LogEv.renamed (dirPath ++ [e.name]) (dirPath ++ [renName idx e.name])])
    | .error _ =>
      prefixLoop subNames idx dirPath rest r.1 cnt
        (logs ++ [LogEv.renameError (dirPath ++ [e.name])])

/-- `_prefix_files_in_dir` from `renamer.py`: list the immediate files (a
vanished directory yields 0, a denied listing propagates), sort them in
natural order, and rename each.  Returns the directory afterwards, the count
of successful renames, the emitted events and the escaping error, if any. -/
def _prefix_files_in_dir (t : FsTree) (prefix_index : Nat) (dirPath : List String) :
    FsTree × Nat × List LogEv × Option RunErr :=
  match t with
  | .node fls subs le =>
    match le with
    | some .notFound => (.node fls subs le, 0, [], none)
    | some .permission => (.node fls subs le, 0, [], some .permissionDenied)
    | none =>
      let entries := List.insertionSort entLe fls
      let r := prefixLoop (subs.map Prod.fst) prefix_index dirPath entries fls 0 []
      (.node r.1 subs le, r.2.1, r.2.2, none)

/-- Rank of `nm` in the natural-sorted sibling names: `siblings.index(folder)
+ 1`, defaulting to 1 when the name is absent (`except ValueError`). -/
def indexAmongSiblings (names : List String) (nm : String) : Nat :=
  match (List.insertionSort nameLe names).findIdx? (fun s => s = nm) with
  | some i => i + 1
  | none => 1

/-- `get_folder_index_among_siblings` from `renamer.py`: 1 for a degenerate
path that equals its parent; list the parent's subdirectories (a vanished
parent yields 1, a denied listing propagates `PermissionError`), sort them in
natural order, and return the 1-based position of the folder. -/
def get_folder_index_among_siblings (fs : FsTree) (folder : List String) :
    Except RunErr Nat :=
  if folder.dropLast = folder then .ok 1
  else
    match getDir folder.dropLast fs with
    | none => .ok 1
    | some t =>
      match t.errOf with
      | some .notFound => .ok 1
      | some .permission => .error .permissionDenied
      | none => .ok (indexAmongSiblings (t.subsOf.map Prod.fst) (folder.getLastD ""))

/-! ### The walker -/

/-- One level of `_iter_subdirs_natural` below a listed directory: yield each
sibling in natural order, then its whole subtree; an escaping error cuts the
sequence there. -/
def walkKids (rec : FsTree → List String → List (List String) × Option RunErr)
    (path : List String) : List (String × FsTree) → List (List String) × Option RunErr
  | [] => ([], none)
  | (nm, c) :: rest =>
    let r := rec c (path ++ [nm])
    match r.2 with
    | some e => ((path ++ [nm]) :: r.1, some e)
    | none =>
      let r2 := walkKids rec path rest
      ((path ++ [nm]) :: r.1 ++ r2.1, r2.2)

/-- One step of the walker on a directory: a vanished directory yields
nothing (`except FileNotFoundError: return`), a denied listing escapes, and
otherwise the sorted children are traversed depth-first. -/
def walkStep (rec : FsTree → List String → List (List String) × Option RunErr)
    (t : FsTree) (path : List String) : List (List String) × Option RunErr :=
  match t with
  | .node _ subs le =>
    match le with
    | some .notFound => ([], none)
    | some .permission => ([], some .permissionDenied)
    | none => walkKids rec path (List.insertionSort subLe subs)

/-- Fuel-indexed walker; any fuel of at least `tsize t` computes the full
depth-first sequence. -/
def walkF : Nat → FsTree → List String → List (List String) × Option RunErr
  | 0, _, _ => ([], none)
  | f + 1, t, path => walkStep (walkF f) t path

/-- `_iter_subdirs_natural` from `renamer.py`: the depth-first sequence of
directories strictly below `t` (siblings in natural order, each followed by
its subtree), together with the error aborting the traversal, if any. -/
def _iter_subdirs_natural (t : FsTree) : List (List String) × Option RunErr :=
  walkF (tsize t) t []

/-! ### The orchestrator -/

/-- Result of processing one subtree: the subtree afterwards, the number of
files renamed inside it, the emitted events, and the escaping error, if any. -/
abbrev RunRes := FsTree × Nat × List LogEv × Option RunErr

/-- The `for current_dir in _iter_subdirs_natural(root)` loop restricted to
one listed directory, walking the position-tagged children in natural order:
for each child, compute its sibling index from the parent's current listing
(as `get_folder_index_among_siblings` does, re-sorting and locating the
child by name), emit the `Processing` event, rename its immediate files,
then process its subtree; an escaping error stops the loop with the
filesystem as mutated so far.  Renames never touch directories, so the
listing that discovered the children stays valid throughout. -/
def goKids (rec : FsTree → List String → RunRes) (path : List String) :
    List (Nat × String) → List (String × FsTree) → Nat → List LogEv →
      List (String × FsTree) × Nat × List LogEv × Option RunErr
  | [], subsCur, cnt, logs => (subsCur, cnt, logs, none)
  | (j, nm) :: rest, subsCur, cnt, logs =>
    match subsCur[j]? with
    | none => goKids rec path rest subsCur cnt logs
    | some pc =>
      let idx := indexAmongSiblings (subsCur.map Prod.fst) nm
      let cPath := path ++ [nm]
      let pr := _prefix_files_in_dir pc.2 idx cPath
      match pr.2.2.2 with
      | some e =>
        (subsCur.set j (nm, pr.1), cnt + pr.2.1,
          logs ++ [LogEv.processing cPath idx] ++ pr.2.2.1, some e)
      | none =>
        let wr := rec pr.1 cPath
        match wr.2.2.2 with
        | some e =>
          (subsCur.set j (nm, wr.1), cnt + pr.2.1 + wr.2.1,
            logs ++ [LogEv.processing cPath idx] ++ pr.2.2.1 ++ wr.2.2.1, some e)
        | none =>
          goKids rec path rest (subsCur.set j (nm, wr.1)) (cnt + pr.2.1 + wr.2.1)
            (logs ++ [LogEv.processing cPath idx] ++ pr.2.2.1 ++ wr.2.2.1)

/-- One step of the orchestrator below a directory: a vanished directory ends
the branch, a denied listing escapes, and otherwise the children are
processed depth-first in natural order. -/
def goStep (rec : FsTree → List String → RunRes) (t : FsTree) (path : List String) :
    RunRes :=
  match t with
  | .node fls subs le =>
    match le with
    | some .notFound => (.node fls subs le, 0, [], none)
    | some .permission => (.node fls subs le, 0, [], some .permissionDenied)
    | none =>
      let order := (List.insertionSort enumLe subs.enum).map (fun p => (p.1, p.2.1))
      let r := goKids rec path order subs 0 []
      (.node fls r.1 le, r.2.1, r.2.2.1, r.2.2.2)

/-- Fuel-indexed orchestrator over a subtree; any fuel of at least `tsize t`
processes the subtree completely. -/
def goDirF : Nat → FsTree → List String → RunRes
  | 0, t, _ => (t, 0, [], none)
  | f + 1, t, path => goStep (goDirF f) t path

/-- `rename_files_in_tree` from `renamer.py`.  Raises `NotADirectoryError`
(before any mutation or event) unless the root path names a directory.  With
`include_root_files`, first computes the root's own sibling index and renames
the root's immediate files.  Then processes every directory below the root
depth-first; an uncaught listing error escapes with the mutations made so
far, and otherwise the total count is returned after the `DONE` event. -/
def rename_files_in_tree (fs : FsTree) (root : List String)
    (include_root_files : Bool) : FsTree × Except RunErr Nat × List LogEv :=
  match getDir root fs with
  | none => (fs, .error .notADirectory, [])
  | some t =>
    let step1 : FsTree × Nat × List LogEv × Option RunErr :=
      if include_root_files then
        match get_folder_index_among_siblings fs root with
        | .error e => (t, 0, [], some e)
        | .ok idx =>
          let pr := _prefix_files_in_dir t idx root
          (pr.1, pr.2.1, [LogEv.processingRoot root idx] ++ pr.2.2.1, pr.2.2.2)
      else (t, 0, [], none)
    match step1.2.2.2 with
    | some e => (setDirAt fs root step1.1, .error e, step1.2.2.1)
    | none =>
      let wr := goDirF (tsize step1.1) step1.1 root
      match wr.2.2.2 with
      | some e => (setDirAt fs root wr.1, .error e, step1.2.2.1 ++ wr.2.2.1)
      | none =>
        (setDirAt fs root wr.1, .ok (step1.2.1 + wr.2.1),
          step1.2.2.1 ++ wr.2.2.1 ++ [LogEv.done (step1.2.1 + wr.2.1)])

/-! ### Key-structure lemmas (positions of token kinds) -/

theorem goodKey_length_odd {l : List PyTok} (h : GoodKey l) : l.length % 2 = 1 := by
  induction h with
  | single s hd hl => rfl
  | cons s n rest hd hl hr ih =>
    show (rest.length + 2) % 2 = 1
    omega

theorem goodKey_get_even {l : List PyTok} (h : GoodKey l) :
    ∀ i (hi : i < l.length), i % 2 = 0 →
      ∃ t, l.get ⟨i, hi⟩ = PyTok.str t ∧ (∀ c ∈ t, c.isDigit = false) ∧
        ∃ u : List Char, t = u.map Char.toLower := by
  induction h with
  | single s hd hl =>
    intro i hi hp
    match i, hi with
    | 0, _ => exact ⟨s, rfl, hd, hl⟩
  | cons s n rest hd hl hr ih =>
    intro i hi hp
    match i, hi, hp with
    | 0, _, _ => exact ⟨s, rfl, hd, hl⟩
    | (i + 2), hi, hp =>
      have hi2 : i < rest.length := by
        simp at hi
        omega
      have hp2 : i % 2 = 0 := by omega
      exact ih i hi2 hp2

theorem goodKey_get_odd {l : List PyTok} (h : GoodKey l) :
    ∀ i (hi : i < l.length), i % 2 = 1 → ∃ n, l.get ⟨i, hi⟩ = PyTok.int n := by
  induction h with
  | single s hd hl =>
    intro i hi hp
    match i, hi, hp with
    | 0, _, hp => exact absurd hp (by decide)
  | cons s n rest hd hl hr ih =>
    intro i hi hp
    match i, hi, hp with
    | 1, _, _ => exact ⟨n, rfl⟩
    | (i + 2), hi, hp =>
      have hi2 : i < rest.length := by
        simp at hi
        omega
      have hp2 : i % 2 = 1 := by omega
      exact ih i hi2 hp2

theorem indexAmongSiblings_pos (names : List String) (nm : String) :
    1 ≤ indexAmongSiblings names nm := by
  unfold indexAmongSiblings
  split <;> omega

/-! ### Concrete example trees -/

/-- An empty directory. -/
def emptyDir : FsTree := .node [] [] none

/-- Parent with subdirectories 1, 2, 10, A, B2, B10, b1 (spec example). -/
def sibFs : FsTree := .node []
  [("1", emptyDir), ("2", emptyDir), ("10", emptyDir), ("A", emptyDir),
    ("B2", emptyDir), ("B10", emptyDir), ("b1", emptyDir)] none

/-- C1: with a leftover `2_file.txt` in the directory, `_safe_rename` of
`file.txt` to `2_file.txt` does not complete.  The destination still exists
when the second hop runs, so (Windows rename semantics) the call raises and
the source is left under the temporary name; on POSIX the second hop would
instead silently overwrite `2_file.txt` and lose its data.  Either behaviour
refutes the claim that the collision case completes via the temporary hop
without error or overwrite; the code contradicts its own docstring. -/
theorem c1_safe_rename_collision_fails :
    _safe_rename [FileEnt.mk "file.txt" 0 false, FileEnt.mk "2_file.txt" 1 false] []
        "file.txt" "2_file.txt" =
      ([FileEnt.mk "__renaming__u__file.txt" 0 false, FileEnt.mk "2_file.txt" 1 false],
        Except.error RenErr.dstExists) := rfl

/-- C9: `natural_key` always returns an odd-length list in which tokens at
even positions are digit-free lower-cased text fragments, tokens at odd
positions are natural numbers, and comparing two keys position-wise never
compares an integer token with a text token. -/
theorem c9_natural_key_alternation :
    ∀ s : String,
      (natural_key s).length % 2 = 1 ∧
      (∀ i (hi : i < (natural_key s).length), i % 2 = 0 →
        ∃ t, (natural_key s).get ⟨i, hi⟩ = PyTok.str t ∧
          (∀ c ∈ t, c.isDigit = false) ∧ ∃ u : List Char, t = u.map Char.toLower) ∧
      (∀ i (hi : i < (natural_key s).length), i % 2 = 1 →
        ∃ n, (natural_key s).get ⟨i, hi⟩ = PyTok.int n) ∧
      (∀ (s2 : String) i (hi : i < (natural_key s).length)
          (hj : i < (natural_key s2).length),
        tokCmpE ((natural_key s).get ⟨i, hi⟩) ((natural_key s2).get ⟨i, hj⟩) ≠ none) := by
  intro s
  have hg := goodKey_natural_key s
  refine ⟨goodKey_length_odd hg, goodKey_get_even hg, goodKey_get_odd hg, ?_⟩
  intro s2 i hi hj
  have hg2 := goodKey_natural_key s2
  rcases Nat.even_or_odd i with he | ho
  · have hp : i % 2 = 0 := Nat.even_iff.mp he
    rcases goodKey_get_even hg i hi hp with ⟨t1, h1, -, -⟩
    rcases goodKey_get_even hg2 i hj hp with ⟨t2, h2, -, -⟩
    rw [h1, h2]
    simp [tokCmpE]
  · have hp : i % 2 = 1 := Nat.odd_iff.mp ho
    rcases goodKey_get_odd hg i hi hp with ⟨n1, h1⟩
    rcases goodKey_get_odd hg2 i hj hp with ⟨n2, h2⟩
    rw [h1, h2]
    simp [tokCmpE]

/-- Witness for C9 at the concrete name `b10`: the key is `[str "b", int 10,
str ""]`; position 0 holds a digit-free lower-cased text token, position 1 a
number, and comparison against the key of `2c` is defined at position 0. -/
theorem c9_witness :
    (natural_key "b10").length % 2 = 1 ∧
    (∃ t, (natural_key "b10").get ⟨0, by decide⟩ = PyTok.str t ∧
      (∀ c ∈ t, c.isDigit = false) ∧ ∃ u : List Char, t = u.map Char.toLower) ∧
    (∃ n, (natural_key "b10").get ⟨1, by decide⟩ = PyTok.int n) ∧
    tokCmpE ((natural_key "b10").get ⟨0, by decide⟩)
      ((natural_key "2c").get ⟨0, by decide⟩) ≠ none := by
  have h := c9_natural_key_alternation "b10"
  exact ⟨h.1, h.2.1 0 (by decide) (by decide), h.2.2.1 1 (by decide) (by decide),
    h.2.2.2 "2c" 0 (by decide) (by decide)⟩

/-- C6: comparing the keys of any two names is defined (never the `TypeError`
of a mixed-kind comparison), the order is total — reflexive on equal keys,
antisymmetric via `swap`, transitive — equal names give equal keys, and the
concrete orderings hold: `2 < 10`, `b1 < b2 < b10`, and `A` compares equal
to `a`. -/
theorem c6_natural_key_total_order :
    (∀ a b : String, ∃ o, lexCmpE tokCmpE (natural_key a) (natural_key b) = some o) ∧
    (∀ a b : String, a = b → natural_key a = natural_key b) ∧
    (∀ a : String, lexCmpE tokCmpE (natural_key a) (natural_key a) = some .eq) ∧
    (∀ a b : String,
      nameLt a b ↔ lexCmpE tokCmpE (natural_key b) (natural_key a) = some .gt) ∧
    (∀ a b c : String, nameLt a b → nameLt b c → nameLt a c) ∧
    nameLt "2" "10" ∧ nameLt "b1" "b2" ∧ nameLt "b2" "b10" ∧
    lexCmpE tokCmpE (natural_key "A") (natural_key "a") = some .eq := by
  refine ⟨?_, ?_, ?_, ?_, ?_, by decide, by decide, by decide, by decide⟩
  · intro a b
    exact ⟨nameCmp a b, nameCmpE_eq a b⟩
  · intro a b h
    rw [h]
  · intro a
    rw [nameCmpE_eq, nameCmp_refl]
  · intro a b
    rw [nameLt_iff, nameCmpE_eq b a, nameCmp_swap a b]
    cases nameCmp b a <;> simp [Ordering.swap]
  · intro a b c h1 h2
    rw [nameLt_iff] at *
    exact nameCmp_trans a b c h1 h2

/-- Witness for C6: instantiates the universally quantified parts at concrete
names and discharges the hypotheses of the conditional parts (equal inputs,
and a transitivity chain through `b1 < b2 < b10`). -/
theorem c6_witness :
    natural_key "A" = natural_key "A" ∧ nameLt "b1" "b10" := by
  have h := c6_natural_key_total_order
  exact ⟨h.2.1 "A" "A" rfl, h.2.2.2.2.1 "b1" "b2" "b10" (by decide) (by decide)⟩

/-- C7: whenever `get_folder_index_among_siblings` returns a value, that
value is at least 1; a degenerate path that equals its own parent gives 1;
on the spec's example listing `1, 2, 10, A, B2, B10, b1` the natural-sorted
order is `1, 2, 10, A, b1, B2, B10` with indices 1 to 7; a vanished parent
and a folder missing from its parent's listing both give 1. -/
theorem c7_sibling_index :
    (∀ (fs : FsTree) (folder : List String) (n : Nat),
      get_folder_index_among_siblings fs folder = .ok n → 1 ≤ n) ∧
    (∀ fs : FsTree, get_folder_index_among_siblings fs [] = .ok 1) ∧
    (get_folder_index_among_siblings sibFs ["1"] = .ok 1 ∧
      get_folder_index_among_siblings sibFs ["2"] = .ok 2 ∧
      get_folder_index_among_siblings sibFs ["10"] = .ok 3 ∧
      get_folder_index_among_siblings sibFs ["A"] = .ok 4 ∧
      get_folder_index_among_siblings sibFs ["b1"] = .ok 5 ∧
      get_folder_index_among_siblings sibFs ["B2"] = .ok 6 ∧
      get_folder_index_among_siblings sibFs ["B10"] = .ok 7) ∧
    get_folder_index_among_siblings sibFs ["ghost", "x"] = .ok 1 ∧
    get_folder_index_among_siblings sibFs ["ghost"] = .ok 1 := by
  refine ⟨?_, ?_, ⟨rfl, rfl, rfl, rfl, rfl, rfl, rfl⟩, rfl, rfl⟩
  · intro fs folder n h
    unfold get_folder_index_among_siblings at h
    split at h
    · cases h
      omega
    · split at h
      · cases h
        omega
      · split at h
        · cases h
          omega
        · cases h
        · cases h
          exact indexAmongSiblings_pos _ _
  · intro fs
    rfl

/-- Witness for C7: the conditional first part applied at the concrete call
returning index 5 for `b1`. -/
theorem c7_witness : 1 ≤ 5 ∧ get_folder_index_among_siblings sibFs ["b1"] = .ok 5 :=
  ⟨c7_sibling_index.1 sibFs ["b1"] 5 rfl, rfl⟩

/-! ### Only permission errors escape a run on a valid root -/

theorem gfi_error_is_permission (fs : FsTree) (p : List String) (e : RunErr)
    (h : get_folder_index_among_siblings fs p = .error e) : e = .permissionDenied := by
  unfold get_folder_index_among_siblings at h
  split at h
  · cases h
  · split at h
    · cases h
    · split at h
      · cases h
      · cases h
        rfl
      · cases h

theorem prefix_error_is_permission (t : FsTree) (idx : Nat) (path : List String) :
    (_prefix_files_in_dir t idx path).2.2.2 = none ∨
      (_prefix_files_in_dir t idx path).2.2.2 = some .permissionDenied := by
  rcases t with ⟨fls, subs, le⟩
  rcases le with - | le
  · exact Or.inl rfl
  · rcases le with - | -
    · exact Or.inl rfl
    · exact Or.inr rfl

theorem goKids_error_is_permission
    (rec : FsTree → List String → RunRes)
    (hrec : ∀ t path, (rec t path).2.2.2 = none ∨ (rec t path).2.2.2 = some .permissionDenied)
    (path : List String) :
    ∀ (order : List (Nat × String)) (subsCur : List (String × FsTree))
      (cnt : Nat) (logs : List LogEv),
      (goKids rec path order subsCur cnt logs).2.2.2 = none ∨
        (goKids rec path order subsCur cnt logs).2.2.2 = some .permissionDenied := by
  intro order
  induction order with
  | nil =>
    intro subsCur cnt logs
    exact Or.inl rfl
  | cons hd rest ih =>
    intro subsCur cnt logs
    rcases hd with ⟨j, nm⟩
    rw [goKids]
    dsimp only
    split
    · exact ih _ _ _
    · rename_i pc hpc
      split
      · rename_i e hpre
        have hp2 := prefix_error_is_permission pc.2
          (indexAmongSiblings (subsCur.map Prod.fst) nm) (path ++ [nm])
        rw [hpre] at hp2
        rcases hp2 with hp2 | hp2
        · cases hp2
        · injection hp2 with h2
          rw [h2]
          exact Or.inr rfl
      · rename_i hpre
        split
        · rename_i e hrun
          have hr2 := hrec (_prefix_files_in_dir pc.2
            (indexAmongSiblings (subsCur.map Prod.fst) nm) (path ++ [nm])).1 (path ++ [nm])
          rw [hrun] at hr2
          rcases hr2 with hr2 | hr2
          · cases hr2
          · injection hr2 with h2
            rw [h2]
            exact Or.inr rfl
        · exact ih _ _ _

theorem goDirF_error_is_permission :
    ∀ (f : Nat) (t : FsTree) (path : List String),
      (goDirF f t path).2.2.2 = none ∨ (goDirF f t path).2.2.2 = some .permissionDenied := by
  intro f
  induction f with
  | zero =>
    intro t path
    exact Or.inl rfl
  | succ f ih =>
    intro t path
    rw [goDirF]
    rcases t with ⟨fls, subs, le⟩
    rcases le with - | le
    · exact goKids_error_is_permission (goDirF f) ih path _ subs 0 []
    · rcases le with - | -
      · exact Or.inl rfl
      · exact Or.inr rfl

/-- C2: on a root that does not resolve to a directory, the run fails with
the "not a directory" error before any mutation — unchanged filesystem, zero
events; on a valid directory root that error is never produced (the only
error that can escape is an uncaught `PermissionError`). -/
theorem c2_root_precondition :
    ∀ (fs : FsTree) (root : List String) (flag : Bool),
      (getDir root fs = none →
        rename_files_in_tree fs root flag = (fs, .error .notADirectory, [])) ∧
      ((getDir root fs).isSome →
        (rename_files_in_tree fs root flag).2.1 ≠ Except.error RunErr.notADirectory) := by
  intro fs root flag
  constructor
  · intro h
    unfold rename_files_in_tree
    rw [h]
  · intro hs hcon
    rcases hg : getDir root fs with - | t
    · rw [hg] at hs
      simp at hs
    · unfold rename_files_in_tree at hcon
      rw [hg] at hcon
      dsimp only at hcon
      rcases flag with - | -
      · rw [if_neg (by simp)] at hcon
        dsimp only at hcon
        split at hcon
        · rename_i e hrun
          have := goDirF_error_is_permission (tsize t) t root
          rw [hrun] at this
          rcases this with h2 | h2
          · cases h2
          · injection h2 with h2
            injection hcon with hcon
            rw [hcon] at h2
            cases h2
        · cases hcon
      · rw [if_pos rfl] at hcon
        rcases hgfi : get_folder_index_among_siblings fs root with e0 | idx
        · rw [hgfi] at hcon
          dsimp only at hcon
          injection hcon with hcon
          have := gfi_error_is_permission fs root e0 hgfi
          rw [hcon] at this
          cases this
        · rw [hgfi] at hcon
          dsimp only at hcon
          split at hcon
          · rename_i e hpre
            have := prefix_error_is_permission t idx root
            rw [hpre] at this
            rcases this with h2 | h2
            · cases h2
            · injection h2 with h2
              injection hcon with hcon
              rw [hcon] at h2
              cases h2
          · split at hcon
            · rename_i e hrun
              have := goDirF_error_is_permission
                (tsize (_prefix_files_in_dir t idx root).1)
                (_prefix_files_in_dir t idx root).1 root
              rw [hrun] at this
              rcases this with h2 | h2
              · cases h2
              · injection h2 with h2
                injection hcon with hcon
                rw [hcon] at h2
                cases h2
            · cases hcon

/-- Witness for C2: an invalid root fails untouched with no events, and a
valid root run does not produce the "not a directory" error. -/
theorem c2_witness :
    rename_files_in_tree emptyDir ["nope"] false =
      (emptyDir, .error .notADirectory, []) ∧
    (rename_files_in_tree emptyDir [] false).2.1 ≠ Except.error RunErr.notADirectory := by
  have h1 := (c2_root_precondition emptyDir ["nope"] false).1 rfl
  have h2 := (c2_root_precondition emptyDir [] false).2 rfl
  exact ⟨h1, h2⟩

/-! ### The directory skeleton is invariant (C10) -/

/-- Pure directory skeleton: subdirectory names and their nesting, no files. -/
inductive Shape : Type where
  | node : List (String × Shape) → Shape
deriving Repr

/-- One level of skeleton extraction. -/
def shapeStep (rec : FsTree → Shape) : FsTree → Shape := fun t =>
  match t with
  | .node _ subs _ => .node (subs.map (fun p => (p.1, rec p.2)))

/-- Skeleton of a tree up to depth `n`; two trees have the same directory
structure exactly when their skeletons agree at every depth. -/
def shapeOf : Nat → FsTree → Shape
  | 0 => fun _ => .node []
  | n + 1 => shapeStep (shapeOf n)

/-- Skeletons of a sub-list at depth `n`. -/
def shapeL (n : Nat) (subs : List (String × FsTree)) : List (String × Shape) :=
  subs.map (fun p => (p.1, shapeOf n p.2))

theorem list_set_self {α : Type} (l : List α) (j : Nat) (b : α)
    (h : l[j]? = some b) : l.set j b = l := by
  induction l generalizing j with
  | nil => cases h
  | cons a l ih =>
    cases j with
    | zero =>
      rw [List.getElem?_cons_zero] at h
      injection h with h
      rw [List.set]
      rw [h]
    | succ j =>
      rw [List.getElem?_cons_succ] at h
      rw [List.set]
      rw [ih j h]

theorem prefix_shape (t : FsTree) (idx : Nat) (path : List String) (n : Nat) :
    shapeOf n ((_prefix_files_in_dir t idx path).1) = shapeOf n t := by
  rcases t with ⟨fls, subs, le⟩
  rcases le with - | le
  · cases n <;> rfl
  · rcases le with - | - <;> cases n <;> rfl

theorem goKids_shape
    (rec : FsTree → List String → RunRes)
    (hrec : ∀ t path n, shapeOf n ((rec t path).1) = shapeOf n t)
    (path : List String) :
    ∀ (order : List (Nat × String)) (subsCur : List (String × FsTree)),
      (∀ p ∈ order, ∀ pc, subsCur[p.1]? = some pc → pc.1 = p.2) →
      ∀ (cnt : Nat) (logs : List LogEv) (n : Nat),
        shapeL n ((goKids rec path order subsCur cnt logs).1) = shapeL n subsCur := by
  intro order
  induction order with
  | nil =>
    intro subsCur hord cnt logs n
    rfl
  | cons hd rest ih =>
    intro subsCur hord cnt logs n
    rcases hd with ⟨j, nm⟩
    rw [goKids]
    dsimp only
    split
    · exact ih subsCur (fun p hp => hord p (List.mem_cons_of_mem _ hp)) _ _ n
    · rename_i pc hpc
      have hname : pc.1 = nm := hord (j, nm) (List.mem_cons_self _ _) pc hpc
      have hself : ∀ (x : FsTree), (∀ m, shapeOf m x = shapeOf m pc.2) →
          shapeL n (subsCur.set j (nm, x)) = shapeL n subsCur := by
        intro x hx
        unfold shapeL
        rw [List.map_set]
        apply list_set_self
        rw [List.getElem?_map, hpc]
        dsimp only [Option.map]
        rw [hname, hx n]
      have hordset : ∀ (x : FsTree), ∀ p ∈ rest, ∀ pc2,
          (subsCur.set j (nm, x))[p.1]? = some pc2 → pc2.1 = p.2 := by
        intro x p hp pc2 hpc2
        by_cases hj : p.1 = j
        · rw [hj] at hpc2
          have hlen : j < subsCur.length := by
            by_contra hlen
            rw [List.getElem?_set] at hpc2
            simp [hlen] at hpc2
          rw [List.getElem?_set_self hlen] at hpc2
          injection hpc2 with hpc2
          have h2 := hord p (List.mem_cons_of_mem _ hp) pc (by rw [hj]; exact hpc)
          rw [← hpc2]
          dsimp only
          rw [← h2, hname]
        · rw [List.getElem?_set_ne (fun hh => hj hh.symm)] at hpc2
          exact hord p (List.mem_cons_of_mem _ hp) pc2 hpc2
      split
      · rename_i e hpre
        exact hself _ (fun m => prefix_shape pc.2 _ _ m)
      · rename_i hpre
        split
        · rename_i e hrun
          refine hself _ (fun m => ?_)
          rw [hrec _ _ m, prefix_shape pc.2 _ _ m]
        · rename_i hrun
          rw [ih _ (hordset _) _ _ n]
          refine hself _ (fun m => ?_)
          rw [hrec _ _ m, prefix_shape pc.2 _ _ m]

theorem mem_enum_name {subs : List (String × FsTree)} {p : Nat × String}
    (hp : p ∈ (List.insertionSort enumLe subs.enum).map (fun q => (q.1, q.2.1))) :
    ∀ pc, subs[p.1]? = some pc → pc.1 = p.2 := by
  intro pc hpc
  rcases List.mem_map.mp hp with ⟨q, hq, rfl⟩
  have hq2 : q ∈ subs.enum := (List.perm_insertionSort enumLe subs.enum).mem_iff.mp hq
  have hq3 : subs[q.1]? = some q.2 := by
    have := List.mem_enum_iff_getElem?.mp hq2
    exact this
  rw [hq3] at hpc
  injection hpc with hpc
  rw [hpc]

theorem goDirF_shape :
    ∀ (f : Nat) (t : FsTree) (path : List String) (n : Nat),
      shapeOf n ((goDirF f t path).1) = shapeOf n t := by
  intro f
  induction f with
  | zero =>
    intro t path n
    rfl
  | succ f ih =>
    intro t path n
    rw [goDirF]
    rcases t with ⟨fls, subs, le⟩
    rw [goStep.eq_def]
    rcases le with - | le
    · dsimp only
      cases n with
      | zero => rfl
      | succ n =>
        show Shape.node (shapeL n _) = Shape.node (shapeL n subs)
        rw [goKids_shape (goDirF f) (fun t p m => ih t p m) _ _ subs
          (fun p hp => mem_enum_name hp) 0 [] n]
    · rcases le with - | - <;> rfl

theorem setSubs_shapeL (f : FsTree → FsTree) (n0 : String) :
    ∀ (subs : List (String × FsTree)),
      (∀ q, subs.find? (fun p => p.1 = n0) = some q →
        ∀ m, shapeOf m (f q.2) = shapeOf m q.2) →
      ∀ m, shapeL m (setSubs f n0 subs) = shapeL m subs := by
  intro subs
  induction subs with
  | nil =>
    intro hf m
    rfl
  | cons q rest ih =>
    intro hf m
    rw [setSubs]
    by_cases h : q.1 = n0
    · rw [if_pos h]
      have := hf q (by rw [List.find?_cons_of_pos _ (by simp [h])]) m
      unfold shapeL
      rw [List.map_cons, List.map_cons]
      rw [this]
    · rw [if_neg h]
      unfold shapeL
      rw [List.map_cons, List.map_cons]
      rw [show List.map (fun p => (p.1, shapeOf m p.2)) (setSubs f n0 rest) =
        shapeL m (setSubs f n0 rest) from rfl]
      rw [ih (fun q2 hq2 => hf q2
        (by rw [List.find?_cons_of_neg _ (by simp [h])]; exact hq2)) m]
      rfl

theorem setDir_shape :
    ∀ (path : List String) (fs r t0 : FsTree),
      getDir path fs = some t0 → (∀ m, shapeOf m r = shapeOf m t0) →
      ∀ n, shapeOf n (setDirAt fs path r) = shapeOf n fs := by
  intro path
  induction path with
  | nil =>
    intro fs r t0 hget hr n
    injection hget with hget
    rw [← hget] at hr
    exact hr n
  | cons n0 rest ih =>
    intro fs r t0 hget hr n
    rcases fs with ⟨fls, subs, le⟩
    rw [getDir] at hget
    unfold setDirAt setDirAux
    rcases hf : FsTree.subsOf (FsTree.node fls subs le) |>.find? (fun p => p.1 = n0) with - | p
    · rw [hf] at hget
      cases hget
    · rw [hf] at hget
      cases n with
      | zero => rfl
      | succ n =>
        show Shape.node (shapeL n (setSubs (setDirAux rest r) n0 subs)) =
          Shape.node (shapeL n subs)
        rw [setSubs_shapeL (setDirAux rest r) n0 subs ?_ n]
        intro q hq m
        have hqp : q = p := by
          have : FsTree.subsOf (FsTree.node fls subs le) = subs := rfl
          rw [this] at hf
          rw [hf] at hq
          injection hq with hq
          rw [hq]
        rw [hqp]
        exact ih p.2 r t0 hget hr m

/-- C10: a run of `rename_files_in_tree` never creates, deletes, renames or
reorders a directory: the directory skeleton of the filesystem (names and
nesting of every directory, at every depth) is identical before and after
the run, whether it succeeds or aborts.  Only entries listed as files are
ever handed to `_safe_rename`, which moves file entries in place. -/
theorem c10_directories_invariant :
    ∀ (fs : FsTree) (root : List String) (flag : Bool) (n : Nat),
      shapeOf n ((rename_files_in_tree fs root flag).1) = shapeOf n fs := by
  intro fs root flag n
  rcases hg : getDir root fs with - | t
  · unfold rename_files_in_tree
    rw [hg]
  · unfold rename_files_in_tree
    rw [hg]
    dsimp only
    have hstep : ∀ m, shapeOf m (if flag = true then
        match get_folder_index_among_siblings fs root with
        | .error e => (t, 0, ([] : List LogEv), some e)
        | .ok idx =>
          ((_prefix_files_in_dir t idx root).1, (_prefix_files_in_dir t idx root).2.1,
            [LogEv.processingRoot root idx] ++ (_prefix_files_in_dir t idx root).2.2.1,
            (_prefix_files_in_dir t idx root).2.2.2)
        else (t, 0, [], none)).1 = shapeOf m t := by
      intro m
      rcases flag with - | -
      · rw [if_neg (by simp)]
      · rw [if_pos rfl]
        rcases get_folder_index_among_siblings fs root with e0 | idx
        · rfl
        · exact prefix_shape t idx root m
    split
    · rename_i e hs
      exact setDir_shape root fs _ t hg hstep n
    · split
      · rename_i e hs2
        refine setDir_shape root fs _ t hg (fun m => ?_) n
        rw [goDirF_shape _ _ _ m]
        exact hstep m
      · refine setDir_shape root fs _ t hg (fun m => ?_) n
        rw [goDirF_shape _ _ _ m]
        exact hstep m

/-! ### Walker characterization (C8, C3) -/

/-- A directory path is reachable for the walker: every directory on the way
must list successfully, and the final component must name a subdirectory of
its parent (which is yielded even if it cannot itself be listed). -/
def pathVisible : List String → FsTree → Bool
  | [] => fun _ => false
  | n :: rest => fun t =>
    let pv := pathVisible rest
    match t with
    | .node _ subs le =>
      decide (le = none) &&
        subs.any (fun p => decide (p.1 = n) && (rest.isEmpty || pv p.2))

/-- No directory of the tree fails its listing with a permission error
(vanished directories are allowed). -/
inductive NoPerm : FsTree → Prop where
  | node : ∀ (fls : List FileEnt) (subs : List (String × FsTree)) (le : Option ListErr),
      le ≠ some .permission → (∀ p ∈ subs, NoPerm p.2) → NoPerm (.node fls subs le)

/-- Every directory lists successfully and sibling names are distinct (as on
a real filesystem). -/
inductive CleanTree : FsTree → Prop where
  | node : ∀ (fls : List FileEnt) (subs : List (String × FsTree)),
      (subs.map Prod.fst).Nodup → (∀ p ∈ subs, CleanTree p.2) →
      CleanTree (.node fls subs none)

theorem tsize_pos (t : FsTree) : 1 ≤ tsize t := by
  rcases t with ⟨fls, subs, le⟩
  rw [tsize]
  omega

theorem tsize_lt_of_mem {nm : String} {c : FsTree} :
    ∀ {subs : List (String × FsTree)}, (nm, c) ∈ subs →
      ∀ (fls : List FileEnt) (le : Option ListErr), tsize c < tsize (.node fls subs le) := by
  intro subs h fls le
  rw [tsize]
  have : tsize c < 1 + lsize subs := by
    clear fls le
    induction subs with
    | nil => cases h
    | cons hd tl ih =>
      rcases List.mem_cons.mp h with h1 | h1
      · rw [← h1, lsize]
        omega
      · have := ih h1
        rcases hd with ⟨a, b⟩
        rw [lsize]
        omega
  omega

theorem walkKids_congr (rec1 rec2 : FsTree → List String → List (List String) × Option RunErr)
    (path : List String) :
    ∀ (l : List (String × FsTree)),
      (∀ p ∈ l, ∀ q, rec1 p.2 q = rec2 p.2 q) →
      walkKids rec1 path l = walkKids rec2 path l := by
  intro l
  induction l with
  | nil =>
    intro h
    rfl
  | cons hd tl ih =>
    intro h
    rcases hd with ⟨nm, c⟩
    rw [walkKids, walkKids]
    dsimp only
    rw [h (nm, c) (List.mem_cons_self _ _) (path ++ [nm])]
    rw [ih (fun p hp q => h p (List.mem_cons_of_mem _ hp) q)]

theorem walkF_stable :
    ∀ (N : Nat) (t : FsTree), tsize t ≤ N →
      ∀ (f g : Nat), tsize t ≤ f → tsize t ≤ g → ∀ p, walkF f t p = walkF g t p := by
  intro N
  induction N with
  | zero =>
    intro t ht
    have := tsize_pos t
    omega
  | succ N ih =>
    intro t ht f g hf hg p
    have h1 := tsize_pos t
    rcases f with - | f
    · omega
    rcases g with - | g
    · omega
    rw [walkF, walkF]
    rcases t with ⟨fls, subs, le⟩
    rw [walkStep.eq_def, walkStep.eq_def]
    rcases le with - | le
    · dsimp only
      apply walkKids_congr
      intro q hq r
      have hqm : q ∈ subs := (List.perm_insertionSort subLe subs).mem_iff.mp hq
      rcases q with ⟨nm, c⟩
      have hlt : tsize c < tsize (FsTree.node fls subs none) := tsize_lt_of_mem hqm fls none
      exact ih c (by omega) f g (by omega) (by omega) r
    · rcases le with - | - <;> rfl

theorem walkKids_shift
    (rec : FsTree → List String → List (List String) × Option RunErr)
    (hrec : ∀ c q, rec c q = ((rec c []).1.map (fun x => q ++ x), (rec c []).2))
    (p : List String) :
    ∀ (l : List (String × FsTree)),
      walkKids rec p l =
        ((walkKids rec [] l).1.map (fun x => p ++ x), (walkKids rec [] l).2) := by
  intro l
  induction l with
  | nil => rfl
  | cons hd tl ih =>
    rcases hd with ⟨nm, c⟩
    rw [walkKids, walkKids]
    dsimp only
    rw [hrec c (p ++ [nm]), hrec c ([] ++ [nm])]
    dsimp only
    rcases (rec c []).2 with - | e
    · dsimp only
      rw [ih]
      dsimp only
      simp [List.map_map, List.append_assoc, Function.comp]
    · dsimp only
      simp [List.map_map, List.append_assoc, Function.comp]

theorem walkF_shift :
    ∀ (f : Nat) (t : FsTree) (p : List String),
      walkF f t p = ((walkF f t []).1.map (fun x => p ++ x), (walkF f t []).2) := by
  intro f
  induction f with
  | zero =>
    intro t p
    rfl
  | succ f ih =>
    intro t p
    rcases t with ⟨fls, subs, le⟩
    rw [walkF, walkF, walkStep.eq_def, walkStep.eq_def]
    rcases le with - | le
    · dsimp only
      exact walkKids_shift (walkF f) (fun c q => ih c q) p _
    · rcases le with - | - <;> rfl

theorem walkKids_mem
    (rec : FsTree → List String → List (List String) × Option RunErr) :
    ∀ (l : List (String × FsTree)),
      (∀ p ∈ l, (rec p.2 [p.1]).2 = none) →
      (walkKids rec [] l).2 = none ∧
      (∀ q, q ∈ (walkKids rec [] l).1 ↔
        ∃ p ∈ l, q = [p.1] ∨ q ∈ (rec p.2 [p.1]).1) := by
  intro l
  induction l with
  | nil =>
    intro h
    constructor
    · rfl
    · intro q
      simp [walkKids]
  | cons hd tl ih =>
    intro h
    rcases hd with ⟨nm, c⟩
    rw [walkKids]
    dsimp only
    have hhd := h (nm, c) (List.mem_cons_self _ _)
    dsimp only at hhd
    simp only [List.nil_append]
    rw [hhd]
    dsimp only
    rcases ih (fun p hp => h p (List.mem_cons_of_mem _ hp)) with ⟨ih1, ih2⟩
    constructor
    · exact ih1
    · intro q
      simp only [List.mem_cons, List.mem_append, ih2 q]
      aesop

theorem pathVisible_nil (t : FsTree) : pathVisible [] t = false := rfl

theorem pathVisible_cons (n : String) (rest : List String) (fls : List FileEnt)
    (subs : List (String × FsTree)) (le : Option ListErr) :
    pathVisible (n :: rest) (.node fls subs le) =
      (decide (le = none) &&
        subs.any (fun p => decide (p.1 = n) && (rest.isEmpty || pathVisible rest p.2))) := rfl

theorem noPerm_le {fls : List FileEnt} {subs : List (String × FsTree)}
    {le : Option ListErr} (h : NoPerm (.node fls subs le)) :
    le ≠ some .permission := by
  cases h
  assumption

theorem noPerm_subs {fls : List FileEnt} {subs : List (String × FsTree)}
    {le : Option ListErr} (h : NoPerm (.node fls subs le)) :
    ∀ p ∈ subs, NoPerm p.2 := by
  cases h
  assumption

theorem walk_noperm_main :
    ∀ (N : Nat) (t : FsTree), tsize t ≤ N → NoPerm t → ∀ (f : Nat), tsize t ≤ f →
      (walkF f t []).2 = none ∧
      (∀ q, q ∈ (walkF f t []).1 ↔ pathVisible q t = true) := by
  intro N
  induction N with
  | zero =>
    intro t ht
    have := tsize_pos t
    omega
  | succ N ih =>
    intro t ht hnp f hf
    rcases f with - | f
    · have := tsize_pos t
      omega
    rcases t with ⟨fls, subs, le⟩
    have hle := noPerm_le hnp
    have hsub := noPerm_subs hnp
    rw [walkF, walkStep.eq_def]
    rcases le with - | le
    · dsimp only
      have hchild : ∀ p ∈ List.insertionSort subLe subs,
          (walkF f p.2 [p.1]).2 = none ∧
          (∀ q, q ∈ (walkF f p.2 [p.1]).1 ↔
            ∃ x, q = p.1 :: x ∧ pathVisible x p.2 = true) := by
        intro p hp
        have hm : p ∈ subs := (List.perm_insertionSort subLe subs).mem_iff.mp hp
        rcases p with ⟨nm, c⟩
        have hlt := tsize_lt_of_mem hm fls (none : Option ListErr)
        have ihp := ih c (by omega) (hsub (nm, c) hm) f (by omega)
        have hsh := walkF_shift f c [nm]
        constructor
        · rw [hsh]
          exact ihp.1
        · intro q
          rw [hsh]
          dsimp only
          rw [List.mem_map]
          constructor
          · intro hq
            rcases hq with ⟨x, hx, rfl⟩
            exact ⟨x, rfl, (ihp.2 x).mp hx⟩
          · intro hq
            rcases hq with ⟨x, rfl, hx⟩
            exact ⟨x, (ihp.2 x).mpr hx, rfl⟩
      have hmem := walkKids_mem (walkF f) (List.insertionSort subLe subs)
        (fun p hp => (hchild p hp).1)
      refine ⟨hmem.1, ?_⟩
      intro q
      rw [hmem.2 q]
      constructor
      · intro hq
        rcases hq with ⟨p, hp, hcase⟩
        have hm : p ∈ subs := (List.perm_insertionSort subLe subs).mem_iff.mp hp
        rcases hcase with hc | hc
        · rw [hc, pathVisible_cons]
          simp only [decide_eq_true_iff, Bool.and_eq_true, List.any_eq_true]
          refine ⟨by simp, p, hm, ?_⟩
          simp
        · rcases ((hchild p hp).2 q).mp hc with ⟨x, rfl, hx⟩
          rw [pathVisible_cons]
          simp only [decide_eq_true_iff, Bool.and_eq_true, List.any_eq_true]
          refine ⟨by simp, p, hm, ?_⟩
          simp [hx]
      · intro hq
        rcases q with - | ⟨n, rest⟩
        · rw [pathVisible_nil] at hq
          cases hq
        · rw [pathVisible_cons] at hq
          simp only [decide_eq_true_iff, Bool.and_eq_true, List.any_eq_true] at hq
          rcases hq with ⟨-, p, hm, hp2⟩
          have hp : p ∈ List.insertionSort subLe subs :=
            (List.perm_insertionSort subLe subs).mem_iff.mpr hm
          simp only [Bool.and_eq_true, decide_eq_true_iff, Bool.or_eq_true,
            List.isEmpty_iff] at hp2
          rcases hp2 with ⟨rfl, hp3 | hp3⟩
          · exact ⟨p, hp, Or.inl (by rw [hp3])⟩
          · refine ⟨p, hp, Or.inr ?_⟩
            exact ((hchild p hp).2 (p.1 :: rest)).mpr ⟨rest, rfl, hp3⟩
    · rcases le with - | -
      · refine ⟨rfl, ?_⟩
        intro q
        rcases q with - | ⟨n, rest⟩
        · simp [pathVisible_nil]
        · simp [pathVisible_cons]
      · exact absurd rfl hle

theorem cleanTree_le {fls : List FileEnt} {subs : List (String × FsTree)}
    {le : Option ListErr} (h : CleanTree (.node fls subs le)) : le = none := by
  cases h
  rfl

theorem cleanTree_nodup {fls : List FileEnt} {subs : List (String × FsTree)}
    {le : Option ListErr} (h : CleanTree (.node fls subs le)) :
    (subs.map Prod.fst).Nodup := by
  cases h
  assumption

theorem cleanTree_subs {fls : List FileEnt} {subs : List (String × FsTree)}
    {le : Option ListErr} (h : CleanTree (.node fls subs le)) :
    ∀ p ∈ subs, CleanTree p.2 := by
  cases h
  assumption

theorem cleanTree_noPerm : ∀ (t : FsTree), CleanTree t → NoPerm t := by
  intro t hc
  induction hc with
  | node fls subs hnd hsub ih =>
    exact NoPerm.node fls subs none (by simp) ih

theorem find?_eq_of_nodup {subs : List (String × FsTree)} {p : String × FsTree} {n : String}
    (hnd : (subs.map Prod.fst).Nodup) (hp : p ∈ subs) (hn : p.1 = n) :
    subs.find? (fun x => x.1 = n) = some p := by
  induction subs with
  | nil => cases hp
  | cons q rest ih =>
    rw [List.map_cons] at hnd
    rcases List.mem_cons.mp hp with hp1 | hp1
    · rw [← hp1]
      exact List.find?_cons_of_pos _ (by simp [hn])
    · have hq : q.1 ≠ n := by
        intro hq
        have : p.1 ∈ rest.map Prod.fst := List.mem_map_of_mem _ hp1
        rw [hn, ← hq] at this
        exact (List.nodup_cons.mp hnd).1 this
      rw [List.find?_cons_of_neg _ (by simp [hq])]
      exact ih (List.nodup_cons.mp hnd).2 hp1

theorem cleanTree_pathVisible :
    ∀ (q : List String) (t : FsTree), CleanTree t →
      (pathVisible q t = true ↔ (q ≠ [] ∧ (getDir q t).isSome)) := by
  intro q
  induction q with
  | nil =>
    intro t hc
    simp [pathVisible_nil]
  | cons n rest ih =>
    intro t hc
    rcases t with ⟨fls, subs, le⟩
    have hle := cleanTree_le hc
    subst hle
    rw [pathVisible_cons, getDir]
    simp only [decide_eq_true_iff, Bool.and_eq_true, List.any_eq_true, Bool.or_eq_true,
      List.isEmpty_iff]
    constructor
    · intro hq
      rcases hq with ⟨-, p, hp, hn, hrest⟩
      have hfind : subs.find? (fun x => x.1 = n) = some p :=
        find?_eq_of_nodup (cleanTree_nodup hc) hp (by simpa using hn)
      refine ⟨by simp, ?_⟩
      rw [show FsTree.subsOf (FsTree.node fls subs none) = subs from rfl, hfind]
      rcases hrest with hrest | hrest
      · rw [hrest]
        simp [getDir]
      · rcases rest with - | ⟨r0, rest⟩
        · simp [getDir]
        · exact ((ih p.2 (cleanTree_subs hc p hp)).mp hrest).2
    · intro hq
      rcases hq with ⟨-, hq⟩
      rw [show FsTree.subsOf (FsTree.node fls subs none) = subs from rfl] at hq
      rcases hfind : subs.find? (fun x => x.1 = n) with - | p
      · rw [hfind] at hq
        cases hq
      · rw [hfind] at hq
        have hp := List.mem_of_find?_eq_some hfind
        have hn : p.1 = n := by
          have := List.find?_some hfind
          simpa using this
        refine ⟨trivial, p, hp, by simp [hn], ?_⟩
        rcases rest with - | ⟨r0, rest⟩
        · exact Or.inl rfl
        · refine Or.inr ?_
          refine ((ih p.2 (cleanTree_subs hc p hp)).mpr ⟨by simp, hq⟩)

theorem walkKids_flatMap (F : Nat) :
    ∀ (l : List (String × FsTree)),
      (∀ p ∈ l, tsize p.2 ≤ F ∧ NoPerm p.2) →
      walkKids (walkF F) [] l =
        (l.flatMap (fun p =>
          [p.1] :: ((_iter_subdirs_natural p.2).1.map (fun q => p.1 :: q))), none) := by
  intro l
  induction l with
  | nil =>
    intro h
    rfl
  | cons hd tl ih =>
    intro h
    rcases hd with ⟨nm, c⟩
    have hhd := h (nm, c) (List.mem_cons_self _ _)
    rw [walkKids]
    dsimp only
    simp only [List.nil_append]
    have hsh := walkF_shift F c [nm]
    have hbase := walk_noperm_main (tsize c) c (Nat.le_refl _) hhd.2 F hhd.1
    have h2 : (walkF F c [nm]).2 = none := by
      rw [hsh]
      exact hbase.1
    rw [h2]
    dsimp only
    rw [ih (fun p hp => h p (List.mem_cons_of_mem _ hp))]
    dsimp only
    rw [List.flatMap_cons]
    have h1 : (walkF F c [nm]).1 =
        (_iter_subdirs_natural c).1.map (fun q => nm :: q) := by
      rw [hsh]
      dsimp only
      have hst := walkF_stable (tsize c) c (Nat.le_refl _) F (tsize c) hhd.1 (Nat.le_refl _) []
      rw [hst]
      rw [show walkF (tsize c) c [] = _iter_subdirs_natural c from rfl]
      apply List.map_congr_left
      intro q hq
      rfl
    rw [h1]

theorem iter_dfs_eq (fls : List FileEnt) (subs : List (String × FsTree))
    (hc : CleanTree (.node fls subs none)) :
    (_iter_subdirs_natural (.node fls subs none)).1 =
      (List.insertionSort subLe subs).flatMap
        (fun p => [p.1] :: ((_iter_subdirs_natural p.2).1.map (fun q => p.1 :: q))) := by
  have h0 : _iter_subdirs_natural (.node fls subs none) =
      walkF (lsize subs + 1) (.node fls subs none) [] := by
    rw [show _iter_subdirs_natural (.node fls subs none) =
      walkF (tsize (.node fls subs none)) (.node fls subs none) [] from rfl]
    rw [show tsize (.node fls subs none) = lsize subs + 1 from by rw [tsize]; omega]
  rw [h0, walkF, walkStep.eq_def]
  dsimp only
  rw [walkKids_flatMap (lsize subs) (List.insertionSort subLe subs) ?_]
  intro p hp
  have hm : p ∈ subs := (List.perm_insertionSort subLe subs).mem_iff.mp hp
  have hlt := @tsize_lt_of_mem p.1 p.2 _ (by simpa using hm) fls (none : Option ListErr)
  constructor
  · rw [tsize] at hlt
    omega
  · exact cleanTree_noPerm p.2 (cleanTree_subs hc p hm)

/-- Example tree for the depth-first order: `top` with `sub1, sub2, sub10`,
and a later sibling `zz` of `top`. -/
def dfsFs : FsTree := .node []
  [("top", .node [] [("sub1", emptyDir), ("sub2", emptyDir), ("sub10", emptyDir)] none),
    ("zz", emptyDir)] none

/-- C8: on a tree whose directories all list successfully, the walker aborts
nowhere and yields exactly the directories strictly below the root; at each
level the siblings appear in natural-sorted order, each followed by its whole
subtree before the next sibling (the flatMap equation); the sort is a
permutation sorted by `nameLe`; and on the example tree the yield order is
`top, top/sub1, top/sub2, top/sub10, zz`. -/
theorem c8_walker_depth_first :
    (∀ t : FsTree, CleanTree t →
      (_iter_subdirs_natural t).2 = none ∧
      (∀ q, q ∈ (_iter_subdirs_natural t).1 ↔ q ≠ [] ∧ (getDir q t).isSome)) ∧
    (∀ (fls : List FileEnt) (subs : List (String × FsTree)),
      CleanTree (.node fls subs none) →
      (_iter_subdirs_natural (.node fls subs none)).1 =
        (List.insertionSort subLe subs).flatMap
          (fun p => [p.1] :: ((_iter_subdirs_natural p.2).1.map (fun q => p.1 :: q)))) ∧
    (∀ l : List (String × FsTree), (List.insertionSort subLe l).Perm l ∧
      List.Sorted subLe (List.insertionSort subLe l)) ∧
    (_iter_subdirs_natural dfsFs).1 =
      [["top"], ["top", "sub1"], ["top", "sub2"], ["top", "sub10"], ["zz"]] := by
  refine ⟨?_, iter_dfs_eq, ?_, by decide⟩
  · intro t hc
    have h := walk_noperm_main (tsize t) t (Nat.le_refl _) (cleanTree_noPerm t hc)
      (tsize t) (Nat.le_refl _)
    refine ⟨h.1, ?_⟩
    intro q
    rw [show (_iter_subdirs_natural t) = walkF (tsize t) t [] from rfl]
    rw [h.2 q]
    exact cleanTree_pathVisible q t hc
  · intro l
    exact ⟨List.perm_insertionSort subLe l, List.sorted_insertionSort subLe l⟩

/-- Witness for C8 at the example tree: the walker aborts nowhere and
membership of `top/sub2` in the yield matches its existence in the tree. -/
theorem c8_witness :
    (_iter_subdirs_natural dfsFs).2 = none ∧
    (["top", "sub2"] ∈ (_iter_subdirs_natural dfsFs).1 ↔
      ["top", "sub2"] ≠ [] ∧ (getDir ["top", "sub2"] dfsFs).isSome) := by
  have hc : CleanTree dfsFs := by
    refine CleanTree.node _ _ (by decide) ?_
    intro p hp
    simp only [List.mem_cons, List.not_mem_nil, or_false] at hp
    rcases hp with rfl | rfl
    · refine CleanTree.node _ _ (by decide) ?_
      intro p hp
      simp only [List.mem_cons, List.not_mem_nil, or_false] at hp
      rcases hp with rfl | rfl | rfl <;>
        exact CleanTree.node _ _ (by decide) (by intro p hp; cases hp)
    · exact CleanTree.node _ _ (by decide) (by intro p hp; cases hp)
  exact ⟨(c8_walker_depth_first.1 dfsFs hc).1,
    (c8_walker_depth_first.1 dfsFs hc).2 ["top", "sub2"]⟩

/-! ### C3: which listing failures are recovered -/

theorem noPerm_errOf {t : FsTree} (h : NoPerm t) : t.errOf ≠ some .permission := by
  rcases t with ⟨fls, subs, le⟩
  exact noPerm_le h

theorem noPerm_getDir :
    ∀ (p : List String) (fs t : FsTree), NoPerm fs → getDir p fs = some t → NoPerm t := by
  intro p
  induction p with
  | nil =>
    intro fs t h hg
    injection hg with hg
    rw [← hg]
    exact h
  | cons n rest ih =>
    intro fs t h hg
    rcases fs with ⟨fls, subs, le⟩
    rw [getDir] at hg
    rcases hf : (FsTree.node fls subs le).subsOf.find? (fun p => p.1 = n) with - | pc
    · rw [hf] at hg
      cases hg
    · rw [hf] at hg
      have hm : pc ∈ subs := List.mem_of_find?_eq_some hf
      exact ih pc.2 t (noPerm_subs h pc hm) hg

theorem gfi_ok_of_noPerm (fs : FsTree) (folder : List String) (h : NoPerm fs) :
    ∃ n, get_folder_index_among_siblings fs folder = .ok n := by
  unfold get_folder_index_among_siblings
  split
  · exact ⟨1, rfl⟩
  · rcases hg : getDir folder.dropLast fs with - | t
    · exact ⟨1, rfl⟩
    · have hnp := noPerm_getDir _ _ _ h hg
      dsimp only
      rcases ht : t.errOf with - | le
      · exact ⟨_, rfl⟩
      · rcases le with - | -
        · exact ⟨1, rfl⟩
        · exact absurd ht (noPerm_errOf hnp)

theorem prefix_subs_le (fls : List FileEnt) (subs : List (String × FsTree))
    (le : Option ListErr) (idx : Nat) (path : List String) :
    ∃ fls1, (_prefix_files_in_dir (.node fls subs le) idx path).1 = .node fls1 subs le := by
  rcases le with - | le
  · exact ⟨_, rfl⟩
  · rcases le with - | - <;> exact ⟨_, rfl⟩

theorem noPerm_files_irrel {fls fls2 : List FileEnt} {subs : List (String × FsTree)}
    {le : Option ListErr} (h : NoPerm (.node fls subs le)) :
    NoPerm (.node fls2 subs le) :=
  NoPerm.node fls2 subs le (noPerm_le h) (noPerm_subs h)

theorem prefix_noPerm {t : FsTree} (idx : Nat) (path : List String) (h : NoPerm t) :
    NoPerm (_prefix_files_in_dir t idx path).1 ∧
      (_prefix_files_in_dir t idx path).2.2.2 = none := by
  rcases t with ⟨fls, subs, le⟩
  rcases prefix_subs_le fls subs le idx path with ⟨fls1, hfl⟩
  rw [hfl]
  refine ⟨noPerm_files_irrel h, ?_⟩
  rcases le with - | le
  · rfl
  · rcases le with - | -
    · rfl
    · exact absurd rfl (noPerm_le h)

theorem goDirF_noPerm :
    ∀ (f : Nat) (t : FsTree) (path : List String), NoPerm t →
      NoPerm (goDirF f t path).1 ∧ (goDirF f t path).2.2.2 = none := by
  intro f
  induction f with
  | zero =>
    intro t path h
    exact ⟨h, rfl⟩
  | succ f ih =>
    intro t path h
    rw [goDirF]
    rcases t with ⟨fls, subs, le⟩
    rw [goStep.eq_def]
    rcases hle : le with - | le2
    · dsimp only
      have hkids : ∀ (order : List (Nat × String)) (subsCur : List (String × FsTree))
          (cnt : Nat) (logs : List LogEv),
          (∀ p ∈ subsCur, NoPerm p.2) →
          (∀ p ∈ (goKids (goDirF f) path order subsCur cnt logs).1, NoPerm p.2) ∧
          (goKids (goDirF f) path order subsCur cnt logs).2.2.2 = none := by
        intro order
        induction order with
        | nil =>
          intro subsCur cnt logs hcur
          exact ⟨hcur, rfl⟩
        | cons hd rest ihk =>
          intro subsCur cnt logs hcur
          rcases hd with ⟨j, nm⟩
          rw [goKids]
          dsimp only
          rcases hj : subsCur[j]? with - | pc
          · exact ihk subsCur cnt logs hcur
          · have hpc : NoPerm pc.2 := hcur pc (List.getElem?_mem hj)
            have hpre := @prefix_noPerm pc.2
              (indexAmongSiblings (subsCur.map Prod.fst) nm) (path ++ [nm]) hpc
            dsimp only
            rw [hpre.2]
            dsimp only
            have hrun := ih (_prefix_files_in_dir pc.2
              (indexAmongSiblings (subsCur.map Prod.fst) nm) (path ++ [nm])).1
              (path ++ [nm]) hpre.1
            rw [hrun.2]
            dsimp only
            apply ihk
            intro p hp
            rcases List.mem_or_eq_of_mem_set hp with hp2 | hp2
            · exact hcur p hp2
            · rw [hp2]
              exact hrun.1
      have hres := hkids ((List.insertionSort enumLe subs.enum).map (fun p => (p.1, p.2.1)))
        subs 0 [] (noPerm_subs (hle ▸ h))
      refine ⟨?_, hres.2⟩
      exact NoPerm.node _ _ _ (by simp) hres.1
    · subst hle
      rcases le2 with - | -
      · exact ⟨h, rfl⟩
      · exact absurd rfl (noPerm_le h)

/-- A tree whose first subdirectory denies its listing (`PermissionError`)
while its sibling `B` still holds an untouched file. -/
def permFs : FsTree :=
  .node []
    [("A", .node [] [] (some .permission)),
     ("B", .node [⟨"f.txt", 0, false⟩] [] none)] none

/-- A permission-free tree whose first subdirectory vanishes between being
listed and being entered (`FileNotFoundError`), while its sibling `keep`
still holds a file. -/
def goneFs : FsTree :=
  .node []
    [("gone", .node [] [("under", emptyDir)] (some .notFound)),
     ("keep", .node [⟨"f.txt", 0, false⟩] [] none)] none

theorem goneFs_noPerm : NoPerm goneFs := by
  refine NoPerm.node _ _ _ (by simp) ?_
  intro p hp
  simp only [List.mem_cons, List.not_mem_nil, or_false] at hp
  rcases hp with rfl | rfl
  · refine NoPerm.node _ _ _ (by simp) ?_
    intro q hq
    simp only [List.mem_cons, List.not_mem_nil, or_false] at hq
    subst hq
    exact NoPerm.node _ _ _ (by simp) (by intro r hr; simp at hr)
  · exact NoPerm.node _ _ _ (by simp) (by intro r hr; simp at hr)

/-- C3: counterexample.  A single unlistable directory can abort the whole
traversal: when subdirectory `A` denies its listing (`PermissionError`), the
walker stops right after yielding `A` — the already-enumerated sibling `B` is
never visited — and the whole `rename_files_in_tree` run aborts with the
error, leaving `B`'s file unrenamed.  Only a vanished directory
(`FileNotFoundError`) is recovered, not every unlistable one. -/
theorem c3_counterexample :
    _iter_subdirs_natural permFs = ([["A"]], some .permissionDenied) ∧
    rename_files_in_tree permFs [] false =
      (permFs, .error .permissionDenied, [LogEv.processing ["A"] 1]) := by
  constructor <;> rfl

/-- C3 (amended): if a directory *vanishes* (`FileNotFoundError`), its branch
yields nothing further and the traversal continues with the siblings already
enumerated; on a tree free of permission failures the walker never aborts (it
yields exactly the visible directories) and the whole `rename_files_in_tree`
run on any valid root completes normally, returning a count. -/
theorem c3_amended :
    (∀ t : FsTree, NoPerm t →
      (_iter_subdirs_natural t).2 = none ∧
      ∀ q, q ∈ (_iter_subdirs_natural t).1 ↔ pathVisible q t = true) ∧
    (∀ (fs : FsTree) (root : List String) (flag : Bool) (t : FsTree),
      NoPerm fs → getDir root fs = some t →
      ∃ n, (rename_files_in_tree fs root flag).2.1 = Except.ok n) := by
  constructor
  · intro t h
    exact walk_noperm_main (tsize t) t le_rfl h (tsize t) le_rfl
  · intro fs root flag t hnp hg
    have hnt : NoPerm t := noPerm_getDir root fs t hnp hg
    unfold rename_files_in_tree
    rw [hg]
    rcases flag with - | -
    · simp only [Bool.false_eq_true, if_false]
      have hrun := goDirF_noPerm (tsize t) t root hnt
      rw [hrun.2]
      exact ⟨_, rfl⟩
    · rcases gfi_ok_of_noPerm fs root hnp with ⟨idx, hidx⟩
      simp only [if_true]
      rw [hidx]
      dsimp only
      have hpre := prefix_noPerm idx root hnt
      rw [hpre.2]
      dsimp only
      have hrun := goDirF_noPerm (tsize (_prefix_files_in_dir t idx root).1)
        (_prefix_files_in_dir t idx root).1 root hpre.1
      rw [hrun.2]
      exact ⟨_, rfl⟩

theorem c3_witness :
    NoPerm goneFs ∧
    (_iter_subdirs_natural goneFs).2 = none ∧
    ["keep"] ∈ (_iter_subdirs_natural goneFs).1 ∧
    ∃ n, (rename_files_in_tree goneFs [] true).2.1 = Except.ok n :=
  ⟨goneFs_noPerm,
   (c3_amended.1 goneFs goneFs_noPerm).1,
   ((c3_amended.1 goneFs goneFs_noPerm).2 ["keep"]).mpr (by decide),
   c3_amended.2 goneFs [] true goneFs goneFs_noPerm rfl⟩

/-! ### C4 helpers -/

/-- `renName idx` is injective: the prefix can be cancelled. -/
theorem renName_inj (idx : Nat) {a b : String} (h : renName idx a = renName idx b) :
    a = b := by
  unfold renName at h
  have h2 := congrArg String.data h
  simp only [String.data_append] at h2
  exact String.ext (List.append_cancel_left h2)

/-- In a directory with distinct file names, a name determines the entry. -/
theorem name_inj_of_nodup {fls : List FileEnt} (hnd : (fls.map FileEnt.name).Nodup)
    {x y : FileEnt} (hx : x ∈ fls) (hy : y ∈ fls) (h : x.name = y.name) : x = y :=
  List.inj_on_of_nodup_map hnd hx hy h

/-- A file entry after the loop has processed the names `dn`: renamed if it
was unlocked and already visited, untouched otherwise. -/
def renameIn (idx : Nat) (dn : List String) (g : FileEnt) : FileEnt :=
  if g.locked = false ∧ g.name ∈ dn then { g with name := renName idx g.name } else g

theorem find?_renameIn (idx : Nat) (dn : List String) :
    ∀ (fls0 : List FileEnt),
      (fls0.map FileEnt.name).Nodup →
      (∀ f ∈ fls0, ∀ g ∈ fls0, g.name ≠ renName idx f.name) →
      ∀ {e : FileEnt}, e ∈ fls0 → e.name ∉ dn →
      (fls0.map (renameIn idx dn)).find? (fun f => f.name = e.name) = some e := by
  intro fls0
  induction fls0 with
  | nil =>
    intro _ _ e he _
    cases he
  | cons g tl ih =>
    intro hnd hfr e he hdn
    simp only [List.map_cons, List.find?_cons]
    by_cases hc : (renameIn idx dn g).name = e.name
    · rw [decide_eq_true hc]
      by_cases hr : g.locked = false ∧ g.name ∈ dn
      · exfalso
        rw [renameIn, if_pos hr] at hc
        exact hfr g (List.mem_cons_self g tl) e he hc.symm
      · rw [renameIn, if_neg hr] at hc ⊢
        rcases List.mem_cons.mp he with rfl | he2
        · rfl
        · exfalso
          have : e.name ∈ tl.map FileEnt.name := List.mem_map_of_mem FileEnt.name he2
          rw [← hc] at this
          exact (List.nodup_cons.mp hnd).1 this
    · rw [decide_eq_false hc]
      have he2 : e ∈ tl := by
        rcases List.mem_cons.mp he with rfl | he2
        · exfalso
          by_cases hr : e.locked = false ∧ e.name ∈ dn
          · exact hdn hr.2
          · rw [renameIn, if_neg hr] at hc
            exact hc rfl
        · exact he2
      exact ih (List.nodup_cons.mp hnd).2
        (fun f hf g2 hg2 => hfr f (List.mem_cons_of_mem _ hf) g2 (List.mem_cons_of_mem _ hg2))
        he2 hdn

theorem entryExists_fresh (idx : Nat) (dn : List String) (fls0 : List FileEnt)
    (subNames : List String)
    (hfr : ∀ f ∈ fls0, (∀ g ∈ fls0, g.name ≠ renName idx f.name) ∧
      renName idx f.name ∉ subNames)
    {e : FileEnt} (he : e ∈ fls0) (hdn : e.name ∉ dn) :
    entryExists (fls0.map (renameIn idx dn)) subNames (renName idx e.name) = false := by
  unfold entryExists
  rw [Bool.or_eq_false_iff]
  constructor
  · rw [List.any_eq_false]
    intro x hx
    rcases List.mem_map.mp hx with ⟨g, hg, rfl⟩
    simp only [decide_eq_true_eq]
    by_cases hr : g.locked = false ∧ g.name ∈ dn
    · rw [renameIn, if_pos hr]
      dsimp only
      intro hcon
      have hge := renName_inj idx hcon
      rw [hge] at hr
      exact hdn hr.2
    · rw [renameIn, if_neg hr]
      exact (hfr e he).1 g hg
  · rw [List.any_eq_false]
    intro s hs
    simp only [decide_eq_true_eq]
    intro hcon
    rw [hcon] at hs
    exact (hfr e he).2 hs

theorem map_rename_step (idx : Nat) (dn : List String) (fls0 : List FileEnt)
    (hnd : (fls0.map FileEnt.name).Nodup)
    (hfr : ∀ f ∈ fls0, ∀ g ∈ fls0, g.name ≠ renName idx f.name)
    {e : FileEnt} (he : e ∈ fls0) (_hdn : e.name ∉ dn) (hl : e.locked = false) :
    (fls0.map (renameIn idx dn)).map
        (fun g => if g.name = e.name then { g with name := renName idx e.name } else g) =
      fls0.map (renameIn idx (dn ++ [e.name])) := by
  rw [List.map_map]
  apply List.map_congr_left
  intro x hx
  simp only [Function.comp_apply]
  by_cases hr : x.locked = false ∧ x.name ∈ dn
  · have h1 : renameIn idx dn x = { x with name := renName idx x.name } := by
      rw [renameIn, if_pos hr]
    have h2 : renameIn idx (dn ++ [e.name]) x = { x with name := renName idx x.name } := by
      rw [renameIn, if_pos ⟨hr.1, List.mem_append_left _ hr.2⟩]
    rw [h1, h2]
    dsimp only
    rw [if_neg (Ne.symm (hfr x hx e he))]
  · have h1 : renameIn idx dn x = x := by
      rw [renameIn, if_neg hr]
    rw [h1]
    by_cases hxe : x.name = e.name
    · have hxeq : x = e := name_inj_of_nodup hnd hx he hxe
      have h2 : renameIn idx (dn ++ [e.name]) x = { x with name := renName idx x.name } := by
        rw [renameIn, if_pos ⟨hxeq ▸ hl, List.mem_append_right _ (by simp [hxe])⟩]
      rw [h2, if_pos hxe, hxe]
    · have h2 : renameIn idx (dn ++ [e.name]) x = x := by
        rw [renameIn, if_neg ?hc]
        case hc =>
          rintro ⟨h1x, h2x⟩
          rcases List.mem_append.mp h2x with h3 | h3
          · exact hr ⟨h1x, h3⟩
          · exact hxe (List.mem_singleton.mp h3)
      rw [h2, if_neg hxe]

theorem safe_rename_fresh (subNames : List String) (idx : Nat) (dn : List String)
    (fls0 : List FileEnt)
    (hnd : (fls0.map FileEnt.name).Nodup)
    (hfr : ∀ f ∈ fls0, (∀ g ∈ fls0, g.name ≠ renName idx f.name) ∧
      renName idx f.name ∉ subNames)
    {e : FileEnt} (he : e ∈ fls0) (hdn : e.name ∉ dn) :
    _safe_rename (fls0.map (renameIn idx dn)) subNames e.name (renName idx e.name) =
      if e.locked then (fls0.map (renameIn idx dn), .error .locked)
      else (fls0.map (renameIn idx (dn ++ [e.name])), .ok ()) := by
  unfold _safe_rename
  rw [if_neg ((hfr e he).1 e he), if_neg (by rw [entryExists_fresh idx dn fls0 subNames hfr he hdn]; exact Bool.false_ne_true)]
  unfold osRename
  rw [find?_renameIn idx dn fls0 hnd (fun f hf g hg => (hfr f hf).1 g hg) he hdn]
  dsimp only
  by_cases hl : e.locked
  · rw [if_pos hl, if_pos hl]
  · rw [if_neg hl, if_neg hl,
      if_neg (by rw [entryExists_fresh idx dn fls0 subNames hfr he hdn]; exact Bool.false_ne_true)]
    dsimp only
    rw [map_rename_step idx dn fls0 hnd (fun f hf g hg => (hfr f hf).1 g hg) he hdn
      (by simpa using hl)]

theorem prefixLoop_spec (subNames : List String) (idx : Nat) (dirPath : List String)
    (fls0 : List FileEnt)
    (hnd : (fls0.map FileEnt.name).Nodup)
    (hfr : ∀ f ∈ fls0, (∀ g ∈ fls0, g.name ≠ renName idx f.name) ∧
      renName idx f.name ∉ subNames) :
    ∀ (es : List FileEnt) (dn : List String) (cnt : Nat) (logs : List LogEv),
      (∀ e ∈ es, e ∈ fls0) → (∀ e ∈ es, e.name ∉ dn) →
      (es.map FileEnt.name).Nodup →
      prefixLoop subNames idx dirPath es (fls0.map (renameIn idx dn)) cnt logs =
        (fls0.map (renameIn idx
            (dn ++ (es.filter (fun e => e.locked = false)).map FileEnt.name)),
         cnt + es.countP (fun e => e.locked = false),
         logs ++ es.map (fun e =>
            if e.locked then LogEv.renameError (dirPath ++ [e.name])
            else LogEv.renamed (dirPath ++ [e.name]) (dirPath ++ [renName idx e.name]))) := by
  intro es
  induction es with
  | nil =>
    intro dn cnt logs _ _ _
    simp [prefixLoop]
  | cons e rest ih =>
    intro dn cnt logs hin hdn hnde
    have heF : e ∈ fls0 := hin e (List.mem_cons_self e rest)
    have heD : e.name ∉ dn := hdn e (List.mem_cons_self e rest)
    rw [prefixLoop]
    rw [safe_rename_fresh subNames idx dn fls0 hnd hfr heF heD]
    by_cases hl : e.locked
    · rw [if_pos hl]
      dsimp only
      rw [ih dn cnt
        (logs ++ [LogEv.renameError (dirPath ++ [e.name])])
        (fun x hx => hin x (List.mem_cons_of_mem _ hx))
        (fun x hx => hdn x (List.mem_cons_of_mem _ hx))
        (List.nodup_cons.mp (by simpa using hnde)).2]
      refine congrArg₂ Prod.mk ?_ (congrArg₂ Prod.mk ?_ ?_)
      · rw [List.filter_cons_of_neg (by simp [hl])]
      · rw [List.countP_cons_of_neg _ _ (by simp [hl])]
      · rw [List.map_cons, if_pos hl, List.append_assoc]
        rfl
    · rw [if_neg hl]
      dsimp only
      have hlf : e.locked = false := by simpa using hl
      have hih := ih (dn ++ [e.name]) (cnt + 1)
        (logs ++ [LogEv.renamed (dirPath ++ [e.name]) (dirPath ++ [renName idx e.name])])
        (fun x hx => hin x (List.mem_cons_of_mem _ hx))
        (fun x hx hc => by
          rcases List.mem_append.mp hc with h3 | h3
          · exact hdn x (List.mem_cons_of_mem _ hx) h3
          · have hxn : x.name = e.name := List.mem_singleton.mp h3
            have : e.name ∈ rest.map FileEnt.name := hxn ▸ List.mem_map_of_mem _ hx
            exact (List.nodup_cons.mp (by simpa using hnde)).1 this)
        (List.nodup_cons.mp (by simpa using hnde)).2
      rw [hih]
      refine congrArg₂ Prod.mk ?_ (congrArg₂ Prod.mk ?_ ?_)
      · rw [List.filter_cons_of_pos (by simp [hlf]), List.map_cons, List.append_assoc]
        rfl
      · rw [List.countP_cons_of_pos _ _ (by simp [hlf])]
        omega
      · rw [List.map_cons, if_neg hl, List.append_assoc]
        rfl

theorem renameIn_nil (fls : List FileEnt) : fls.map (renameIn idx []) = fls := by
  have : ∀ g ∈ fls, renameIn idx [] g = g := by
    intro g _
    rw [renameIn, if_neg (by rintro ⟨-, h⟩; cases h)]
  rw [List.map_congr_left this]
  exact List.map_id fls

theorem countP_locked_split (l : List FileEnt) :
    l.countP (fun f => f.locked = false) + l.countP (fun f => f.locked) = l.length := by
  induction l with
  | nil => rfl
  | cons g tl ih =>
    rcases hg : g.locked with - | -
    · rw [List.countP_cons_of_pos _ _ (by simp [hg]), List.countP_cons_of_neg _ _ (by simp [hg])]
      simp only [List.length_cons]
      omega
    · rw [List.countP_cons_of_neg _ _ (by simp [hg]), List.countP_cons_of_pos _ _ (by simp [hg])]
      simp only [List.length_cons]
      omega

/-- Full behaviour of `_prefix_files_in_dir` on a listable directory whose
names are distinct and whose prospective new names are fresh: every unlocked
file is renamed in place, every locked file is skipped, the count is the
number of unlocked files, and one event per file is emitted in natural
order. -/
theorem prefix_files_spec (fls : List FileEnt) (subs : List (String × FsTree))
    (idx : Nat) (path : List String)
    (hnd : (fls.map FileEnt.name).Nodup)
    (hfr : ∀ f ∈ fls, (∀ g ∈ fls, g.name ≠ renName idx f.name) ∧
      renName idx f.name ∉ subs.map Prod.fst) :
    _prefix_files_in_dir (.node fls subs none) idx path =
      (.node (fls.map (fun g => if g.locked then g
          else { g with name := renName idx g.name })) subs none,
       fls.countP (fun f => f.locked = false),
       (List.insertionSort entLe fls).map (fun e =>
          if e.locked then LogEv.renameError (path ++ [e.name])
          else LogEv.renamed (path ++ [e.name]) (path ++ [renName idx e.name])),
       none) := by
  have hperm := List.perm_insertionSort entLe fls
  have hloop := prefixLoop_spec (subs.map Prod.fst) idx path fls hnd hfr
    (List.insertionSort entLe fls) [] 0 []
    (fun e he => hperm.mem_iff.mp he)
    (fun e _ h => by cases h)
    (by exact (hperm.map FileEnt.name).nodup_iff.mpr hnd)
  rw [renameIn_nil] at hloop
  rw [_prefix_files_in_dir]
  rw [hloop]
  dsimp only
  rw [List.nil_append, Nat.zero_add, List.nil_append]
  have hmap : fls.map (renameIn idx
      (((List.insertionSort entLe fls).filter (fun e => e.locked = false)).map FileEnt.name)) =
      fls.map (fun g => if g.locked then g
        else { g with name := renName idx g.name }) := by
    apply List.map_congr_left
    intro g hg
    by_cases hgl : g.locked = true
    · rw [renameIn, if_neg (by rintro ⟨h1, -⟩; rw [hgl] at h1; cases h1), if_pos hgl]
    · have hgf : g.locked = false := by simpa using hgl
      have hmem : g.name ∈ ((List.insertionSort entLe fls).filter
          (fun e => e.locked = false)).map FileEnt.name :=
        List.mem_map_of_mem _ (List.mem_filter.mpr ⟨hperm.mem_iff.mpr hg, by simp [hgf]⟩)
      rw [renameIn, if_pos ⟨hgf, hmem⟩, if_neg hgl]
  rw [hmap, hperm.countP_eq]

def c4Files : List FileEnt :=
  [⟨"a.txt", 0, false⟩, ⟨"b.txt", 1, true⟩, ⟨"c.txt", 2, false⟩]

/-- A tree with one directory of three files whose middle file is locked. -/
def c4Fs : FsTree := .node [] [("d", .node c4Files [] none)] none

/-- C4: in a listable directory with distinct, collision-free names in which
exactly one file is locked, the locked file is skipped with an `ERROR` event,
every other file is renamed with a `RENAMED` event, the directory count is
the file count minus one, and no error escapes; on the example tree (three
files, middle one locked) the whole run returns exactly 2 and renames the
two unlocked files. -/
theorem c4_partial_failure_isolation :
    (∀ (fls : List FileEnt) (subs : List (String × FsTree)) (idx : Nat) (path : List String),
      (fls.map FileEnt.name).Nodup →
      (∀ f ∈ fls, (∀ g ∈ fls, g.name ≠ renName idx f.name) ∧
        renName idx f.name ∉ subs.map Prod.fst) →
      fls.countP (fun f => f.locked) = 1 →
      ((_prefix_files_in_dir (.node fls subs none) idx path).2.1 = fls.length - 1 ∧
       (_prefix_files_in_dir (.node fls subs none) idx path).1 =
         .node (fls.map (fun g => if g.locked then g
           else { g with name := renName idx g.name })) subs none ∧
       (∀ f ∈ fls, f.locked = true →
         LogEv.renameError (path ++ [f.name]) ∈
           (_prefix_files_in_dir (.node fls subs none) idx path).2.2.1) ∧
       (∀ f ∈ fls, f.locked = false →
         LogEv.renamed (path ++ [f.name]) (path ++ [renName idx f.name]) ∈
           (_prefix_files_in_dir (.node fls subs none) idx path).2.2.1) ∧
       (_prefix_files_in_dir (.node fls subs none) idx path).2.2.2 = none)) ∧
    (rename_files_in_tree c4Fs [] false).2.1 = Except.ok 2 ∧
    (rename_files_in_tree c4Fs [] false).1 =
      .node [] [("d", .node [⟨"1_a.txt", 0, false⟩, ⟨"b.txt", 1, true⟩,
        ⟨"1_c.txt", 2, false⟩] [] none)] none := by
  refine ⟨?_, rfl, rfl⟩
  intro fls subs idx path hnd hfr hone
  have hspec := prefix_files_spec fls subs idx path hnd hfr
  have hperm := List.perm_insertionSort entLe fls
  refine ⟨?_, ?_, ?_, ?_, ?_⟩
  · rw [hspec]
    have := countP_locked_split fls
    rw [hone] at this
    dsimp only
    omega
  · rw [hspec]
  · intro f hf hfl
    rw [hspec]
    dsimp only
    have : (if f.locked then LogEv.renameError (path ++ [f.name])
        else LogEv.renamed (path ++ [f.name]) (path ++ [renName idx f.name])) ∈
        (List.insertionSort entLe fls).map (fun e =>
          if e.locked then LogEv.renameError (path ++ [e.name])
          else LogEv.renamed (path ++ [e.name]) (path ++ [renName idx e.name])) :=
      List.mem_map_of_mem _ (hperm.mem_iff.mpr hf)
    rw [if_pos hfl] at this
    exact this
  · intro f hf hfl
    rw [hspec]
    dsimp only
    have : (if f.locked then LogEv.renameError (path ++ [f.name])
        else LogEv.renamed (path ++ [f.name]) (path ++ [renName idx f.name])) ∈
        (List.insertionSort entLe fls).map (fun e =>
          if e.locked then LogEv.renameError (path ++ [e.name])
          else LogEv.renamed (path ++ [e.name]) (path ++ [renName idx e.name])) :=
      List.mem_map_of_mem _ (hperm.mem_iff.mpr hf)
    rw [if_neg (by simp [hfl])] at this
    exact this
  · rw [hspec]

theorem c4_witness :
    ((c4Files.map FileEnt.name).Nodup ∧ c4Files.countP (fun f => f.locked) = 1) ∧
    (_prefix_files_in_dir (.node c4Files [] none) 1 ["d"]).2.1 = c4Files.length - 1 ∧
    LogEv.renameError (["d"] ++ ["b.txt"]) ∈
      (_prefix_files_in_dir (.node c4Files [] none) 1 ["d"]).2.2.1 ∧
    LogEv.renamed (["d"] ++ ["a.txt"]) (["d"] ++ [renName 1 "a.txt"]) ∈
      (_prefix_files_in_dir (.node c4Files [] none) 1 ["d"]).2.2.1 :=
  ⟨⟨by decide, by decide⟩,
   (c4_partial_failure_isolation.1 c4Files [] 1 ["d"] (by decide) (by decide) (by decide)).1,
   (c4_partial_failure_isolation.1 c4Files [] 1 ["d"] (by decide) (by decide)
     (by decide)).2.2.1 ⟨"b.txt", 1, true⟩ (by decide) rfl,
   (c4_partial_failure_isolation.1 c4Files [] 1 ["d"] (by decide) (by decide)
     (by decide)).2.2.2.1 ⟨"a.txt", 0, false⟩ (by decide) rfl⟩

/-! ### C5: running the operation twice -/

/-- The spec's re-run example: a tree whose directory `s` (sibling index 2)
holds one file. -/
def c5Fs : FsTree :=
  .node [] [("a", emptyDir),
    ("s", .node [⟨"file.txt", 0, false⟩] [] none)] none

/-- Like `c5Fs`, but `s` also contains a subdirectory named `2_2_file.txt`,
the very name the second run would give the file. -/
def c5BadFs : FsTree :=
  .node [] [("a", emptyDir),
    ("s", .node [⟨"file.txt", 0, false⟩] [("2_2_file.txt", emptyDir)] none)] none

/-- C5: counterexample.  Not every file renamed in the first run gains a
second prefix layer in the second run: on `c5BadFs` the first run renames
`file.txt` to `2_file.txt`, but in the second run the destination
`2_2_file.txt` is occupied by a directory, so the temporary-hop rename fails
half-way and the file is left under the temporary name
`__renaming__<uuid>__2_file.txt` — not double-prefixed.  The second run still
completes (count 0 for that directory). -/
theorem c5_counterexample :
    rename_files_in_tree c5BadFs [] false =
      (.node [] [("a", emptyDir),
        ("s", .node [⟨"2_file.txt", 0, false⟩] [("2_2_file.txt", emptyDir)] none)] none,
       .ok 1,
       [LogEv.processing ["a"] 1,
        LogEv.processing ["s"] 2,
        LogEv.renamed ["s", "file.txt"] ["s", "2_file.txt"],
        LogEv.processing ["s", "2_2_file.txt"] 1,
        LogEv.done 1]) ∧
    (rename_files_in_tree ((rename_files_in_tree c5BadFs [] false).1) [] false).2.1 =
      Except.ok 0 ∧
    (rename_files_in_tree ((rename_files_in_tree c5BadFs [] false).1) [] false).1 =
      .node [] [("a", emptyDir),
        ("s", .node [⟨"__renaming__u__2_file.txt", 0, false⟩]
          [("2_2_file.txt", emptyDir)] none)] none := by
  refine ⟨rfl, rfl, rfl⟩

/-- C5 (amended): the operation is not idempotent, and numeric prefixes are
never detected or skipped.  On the spec's example the first run renames
`file.txt` to `2_file.txt` and the second run renames it again to
`2_2_file.txt`, so the second run changes the tree; and in any directory
whose prospective new names are fresh, every unlocked file — whatever its
current name, prefixed or not — is renamed to `<index>_<name>`.  (When the
doubled name is already taken by another entry the second layer is not
applied; see the counterexample.) -/
theorem c5_rerun_not_idempotent :
    (rename_files_in_tree c5Fs [] false).1 =
      .node [] [("a", emptyDir),
        ("s", .node [⟨"2_file.txt", 0, false⟩] [] none)] none ∧
    (rename_files_in_tree ((rename_files_in_tree c5Fs [] false).1) [] false).1 =
      .node [] [("a", emptyDir),
        ("s", .node [⟨"2_2_file.txt", 0, false⟩] [] none)] none ∧
    (getDir ["s"] (rename_files_in_tree ((rename_files_in_tree c5Fs [] false).1) [] false).1).map
        FsTree.files ≠
      (getDir ["s"] (rename_files_in_tree c5Fs [] false).1).map FsTree.files ∧
    (∀ (fls : List FileEnt) (subs : List (String × FsTree)) (idx : Nat) (path : List String),
      (fls.map FileEnt.name).Nodup →
      (∀ f ∈ fls, (∀ g ∈ fls, g.name ≠ renName idx f.name) ∧
        renName idx f.name ∉ subs.map Prod.fst) →
      (∀ f ∈ fls, f.locked = false) →
      (_prefix_files_in_dir (.node fls subs none) idx path).1.files =
        fls.map (fun g => { g with name := renName idx g.name })) := by
  refine ⟨rfl, rfl, by decide, ?_⟩
  intro fls subs idx path hnd hfr hunlocked
  rw [prefix_files_spec fls subs idx path hnd hfr]
  dsimp only [FsTree.files]
  apply List.map_congr_left
  intro g hg
  rw [if_neg (by rw [hunlocked g hg]; exact Bool.false_ne_true)]

theorem c5_witness :
    (([⟨"2_file.txt", 0, false⟩] : List FileEnt).map FileEnt.name).Nodup ∧
    (_prefix_files_in_dir (.node [⟨"2_file.txt", 0, false⟩] [] none) 2 ["s"]).1.files =
      [⟨"2_2_file.txt", 0, false⟩] :=
  ⟨by decide,
   by rw [c5_rerun_not_idempotent.2.2.2 [⟨"2_file.txt", 0, false⟩] [] 2 ["s"]
       (by decide) (by decide) (by decide)]
      rfl⟩
